import Mathlib

/-!
Verification model of the `unsegen_jsonviewer` crate.

This file shallowly embeds the two source files of the repository:
`src/displayvalue.rs` (the diff tree: `DisplayValue`, `DisplayObject`,
`DisplayArray`, `DisplayScalar` and their `new`/`update` reconciliation)
and `src/lib.rs` (the `JsonViewer` widget state and the built-in JSON
adapter).  The navigation module `path.rs` is declared by `mod path;` in
`lib.rs` but its source is not part of the repository snapshot; the
address/navigation definitions below are therefore modelled from the
specification and marked as such in their doc comments.

Rust `BTreeMap<String, _>` is modelled as a key-sorted association list
with an ordered insert that replaces an existing binding.  Iterators of
the adapter become explicit lists.  Error paths that panic (the
`assert!` in `DisplayArray::grow`, the `usize` underflow of
`DisplayArray::shrink` at zero) become `Option` failure.
-/

set_option maxHeartbeats 1600000

namespace UnsegenJsonViewer

/-- Model of `BTreeMap::get`: first binding of key `k` in the association
list (a sorted list with unique keys has at most one). -/
def lookupKey {α : Type} (k : String) : List (String × α) → Option α
  | [] => none
  | (k', v) :: rest => if k = k' then some v else lookupKey k rest

/-- Model of `BTreeMap::insert`: ordered insert that replaces an existing
binding for the same key. -/
def btreeInsert {α : Type} (k : String) (v : α) : List (String × α) → List (String × α)
  | [] => [(k, v)]
  | (k', v') :: rest =>
    if k < k' then (k, v) :: (k', v') :: rest
    else if k = k' then (k, v) :: rest
    else (k', v') :: btreeInsert k v rest

/-- The adapter-facing value shape (`ValueVariant` of `lib.rs`), made
recursive: a visited source value is a scalar text, a map of key/value
pairs with an optional description, or an array of items with an optional
description.  Iterators are modelled as lists. -/
inductive Value : Type where
  | scalar : String → Value
  | map : Option String → List (String × Value) → Value
  | arr : Option String → List Value → Value

/-- `DisplayScalar` of `displayvalue.rs`. -/
structure DisplayScalar where
  value : String
  changed : Bool
deriving DecidableEq

mutual
/-- `DisplayValue` of `displayvalue.rs`. -/
inductive DisplayValue : Type where
  | Scalar : DisplayScalar → DisplayValue
  | Object : DisplayObject → DisplayValue
  | Array : DisplayArray → DisplayValue

/-- `DisplayObject` of `displayvalue.rs`: description, members (sorted
`BTreeMap` as association list), `extended`, `description_changed`. -/
inductive DisplayObject : Type where
  | mk : Option String → List (String × DisplayValue) → Bool → Bool → DisplayObject

/-- `DisplayArray` of `displayvalue.rs`: description, values, `extended`,
`num_extended`, `length_changed`, `description_changed`. -/
inductive DisplayArray : Type where
  | mk : Option String → List DisplayValue → Bool → Nat → Bool → Bool → DisplayArray
end

@[simp] def DisplayObject.description : DisplayObject → Option String
  | .mk d _ _ _ => d

@[simp] def DisplayObject.members : DisplayObject → List (String × DisplayValue)
  | .mk _ ms _ _ => ms

@[simp] def DisplayObject.extended : DisplayObject → Bool
  | .mk _ _ e _ => e

@[simp] def DisplayObject.description_changed : DisplayObject → Bool
  | .mk _ _ _ dc => dc

@[simp] def DisplayArray.description : DisplayArray → Option String
  | .mk d _ _ _ _ _ => d

@[simp] def DisplayArray.values : DisplayArray → List DisplayValue
  | .mk _ vs _ _ _ _ => vs

@[simp] def DisplayArray.extended : DisplayArray → Bool
  | .mk _ _ e _ _ _ => e

@[simp] def DisplayArray.num_extended : DisplayArray → Nat
  | .mk _ _ _ nx _ _ => nx

@[simp] def DisplayArray.length_changed : DisplayArray → Bool
  | .mk _ _ _ _ lc _ => lc

@[simp] def DisplayArray.description_changed : DisplayArray → Bool
  | .mk _ _ _ _ _ dc => dc

/-- `DisplayObject::toggle_visibility`: `self.extended ^= true`. -/
def DisplayObject.toggle_visibility : DisplayObject → DisplayObject
  | .mk d ms e dc => .mk d ms (!e) dc

/-- `DisplayArray::toggle_visibility`: `self.extended ^= true`. -/
def DisplayArray.toggle_visibility : DisplayArray → DisplayArray
  | .mk d vs e nx lc dc => .mk d vs (!e) nx lc dc

/-- `DisplayArray::grow`: increments `num_extended` and then asserts
`num_extended <= values.len()`; the assertion failure (panic) is modelled
as `none`. -/
def DisplayArray.grow : DisplayArray → Option DisplayArray
  | .mk d vs e nx lc dc =>
    if nx + 1 ≤ vs.length then some (.mk d vs e (nx + 1) lc dc) else none

/-- `DisplayArray::shrink`: unchecked `usize` subtraction of 1 from
`num_extended`; at zero the source underflows (a debug panic, a wrap in
release), an error path modelled as `none` like `grow`'s assertion. -/
def DisplayArray.shrink : DisplayArray → Option DisplayArray
  | .mk d vs e nx lc dc =>
    if 0 < nx then some (.mk d vs e (nx - 1) lc dc) else none

/-- `DisplayArray::can_grow`: `num_extended < values.len()`. -/
def DisplayArray.can_grow (a : DisplayArray) : Bool :=
  a.num_extended < a.values.length

/-- `DisplayArray::can_shrink`: `num_extended > 0`. -/
def DisplayArray.can_shrink (a : DisplayArray) : Bool :=
  0 < a.num_extended

/-- `DisplayScalar::new`. -/
def DisplayScalar.new (value : String) : DisplayScalar :=
  ⟨value, false⟩

/-- `DisplayScalar::update`: `changed = self.value != new_value`. -/
def DisplayScalar.update (s : DisplayScalar) (new_value : String) : DisplayScalar :=
  ⟨new_value, s.value != new_value⟩

mutual
/-- `DisplayValue::new` (with the bodies of `DisplayObject::new` and
`DisplayArray::new` inlined; the named wrappers follow below). -/
def DisplayValue.new : Value → DisplayValue
  | .scalar s => .Scalar (DisplayScalar.new s)
  | .map d pairs => .Object (.mk d (newMembers [] pairs) true false)
  | .arr d items => .Array (.mk d (newVals items) true (min 3 (newVals items).length) false false)
termination_by v => sizeOf v
decreasing_by all_goals (simp_wf <;> omega)

/-- The member-insertion loop of `DisplayObject::new`. -/
def newMembers (acc : List (String × DisplayValue)) :
    List (String × Value) → List (String × DisplayValue)
  | [] => acc
  | (k, v) :: rest => newMembers (btreeInsert k (DisplayValue.new v) acc) rest
termination_by l => sizeOf l
decreasing_by all_goals (simp_wf <;> omega)

/-- The item-construction loop of `DisplayArray::new`. -/
def newVals : List Value → List DisplayValue
  | [] => []
  | v :: rest => DisplayValue.new v :: newVals rest
termination_by l => sizeOf l
decreasing_by all_goals (simp_wf <;> omega)
end

/-- `DisplayObject::new`: members inserted into a fresh `BTreeMap`,
`extended = true`, `description_changed = false`. -/
def DisplayObject.new (d : Option String) (pairs : List (String × Value)) : DisplayObject :=
  .mk d (newMembers [] pairs) true false

/-- `DisplayArray::new`: `num_extended = min(3, values.len())`,
`extended = true`, no change flags. -/
def DisplayArray.new (d : Option String) (items : List Value) : DisplayArray :=
  .mk d (newVals items) true (min 3 (newVals items).length) false false

theorem DisplayValue.new_map (d : Option String) (pairs : List (String × Value)) :
    DisplayValue.new (.map d pairs) = .Object (DisplayObject.new d pairs) := by
  simp [DisplayValue.new, DisplayObject.new]

theorem DisplayValue.new_arr (d : Option String) (items : List Value) :
    DisplayValue.new (.arr d items) = .Array (DisplayArray.new d items) := by
  simp [DisplayValue.new, DisplayArray.new]

mutual
/-- `DisplayValue::update` (with the bodies of `DisplayObject::update`
and `DisplayArray::update` inlined; the named wrappers follow below):
same-variant nodes reconcile; on a variant mismatch the node is rebuilt
by `new` and, when the result is a scalar, its `changed` flag is forced
to `true`. -/
def DisplayValue.update : DisplayValue → Value → DisplayValue
  | .Scalar old, .scalar s => .Scalar (old.update s)
  | .Object old, .map d pairs =>
    .Object (.mk d (updateMembers old.members [] pairs) old.extended (old.description != d))
  | .Array old, .arr d items =>
    .Array (.mk d (updateVals old.values items) old.extended
      (min old.num_extended (updateVals old.values items).length)
      (old.values.length != (updateVals old.values items).length)
      (old.description != d))
  | _, v =>
    match DisplayValue.new v with
    | .Scalar s => .Scalar ⟨s.value, true⟩
    | w => w
termination_by t v => sizeOf v
decreasing_by all_goals (simp_wf <;> omega)

/-- The member-reconciliation loop of `DisplayObject::update`. -/
def updateMembers (oms acc : List (String × DisplayValue)) :
    List (String × Value) → List (String × DisplayValue)
  | [] => acc
  | (k, v) :: rest =>
    let nv := match lookupKey k oms with
      | some m => m.update v
      | none => DisplayValue.new v
    updateMembers oms (btreeInsert k nv acc) rest
termination_by l => sizeOf l
decreasing_by all_goals (simp_wf <;> omega)

/-- The item-reconciliation loop of `DisplayArray::update`. -/
def updateVals : List DisplayValue → List Value → List DisplayValue
  | _, [] => []
  | [], v :: rest => DisplayValue.new v :: updateVals [] rest
  | o :: os, v :: rest => o.update v :: updateVals os rest
termination_by os l => sizeOf l
decreasing_by all_goals (simp_wf <;> omega)
end

/-- `DisplayObject::update`: rebuild members from the new pairs, reusing
(reconciling) an old member at the same key; `extended` carried over,
`description_changed = old.description != description`. -/
def DisplayObject.update (old : DisplayObject) (d : Option String)
    (pairs : List (String × Value)) : DisplayObject :=
  .mk d (updateMembers old.members [] pairs) old.extended (old.description != d)

/-- `DisplayArray::update`: pairwise reconcile by index (old iterator
zipped against the new items, extra new items constructed fresh),
`num_extended = min(old.num_extended, values.len())`,
`length_changed = old.values.len() != values.len()`, `extended` carried,
`description_changed = old.description != description`. -/
def DisplayArray.update (old : DisplayArray) (d : Option String)
    (items : List Value) : DisplayArray :=
  .mk d (updateVals old.values items) old.extended
    (min old.num_extended (updateVals old.values items).length)
    (old.values.length != (updateVals old.values items).length)
    (old.description != d)

theorem DisplayValue.update_map (old : DisplayObject) (d : Option String)
    (pairs : List (String × Value)) :
    DisplayValue.update (.Object old) (.map d pairs) = .Object (DisplayObject.update old d pairs) := by
  simp [DisplayValue.update, DisplayObject.update]

theorem DisplayValue.update_arr (old : DisplayArray) (d : Option String)
    (items : List Value) :
    DisplayValue.update (.Array old) (.arr d items) = .Array (DisplayArray.update old d items) := by
  simp [DisplayValue.update, DisplayArray.update]

/-- `json::JsonValue` (the `json_ext` reexport in `lib.rs`).  The `json`
crate's `Number` stores a decimal mantissa/exponent; only its rendered
text matters to the viewer, so it is modelled as an integer rendered in
decimal. -/
inductive JsonValue : Type where
  | Null : JsonValue
  | Short : String → JsonValue
  | Str : String → JsonValue
  | Number : Int → JsonValue
  | Boolean : Bool → JsonValue
  | Object : List (String × JsonValue) → JsonValue
  | Array : List JsonValue → JsonValue

mutual
/-- `impl Value for &JsonValue` in `lib.rs`: `visit` classifies a JSON
value as a scalar (with its textual form), a map with no description, or
an array with no description.  The laziness of the Rust iterators is
flattened into eager recursive conversion. -/
def JsonValue.visit : JsonValue → Value
  | .Null => .scalar "null"
  | .Short s => .scalar s
  | .Str s => .scalar s
  | .Number n => .scalar (toString n)
  | .Boolean b => .scalar (if b then "true" else "false")
  | .Object pairs => .map none (visitPairs pairs)
  | .Array items => .arr none (visitList items)
termination_by j => sizeOf j
decreasing_by all_goals (simp_wf <;> omega)

/-- The member iterator of the JSON adapter, as a list. -/
def visitPairs : List (String × JsonValue) → List (String × Value)
  | [] => []
  | (k, v) :: rest => (k, v.visit) :: visitPairs rest
termination_by l => sizeOf l
decreasing_by all_goals (simp_wf <;> omega)

/-- The item iterator of the JSON adapter, as a list. -/
def visitList : List JsonValue → List Value
  | [] => []
  | v :: rest => v.visit :: visitList rest
termination_by l => sizeOf l
decreasing_by all_goals (simp_wf <;> omega)
end

/-- The address type of `path.rs` (not part of the repository snapshot).
Modelled from the spec: a recursive union mirroring the node shape, with
Object point kinds Toggle / Item(key, sub-address) and Array point kinds
Toggle / Shrink / Grow / Item(index, sub-address); here flattened into a
single inductive. -/
inductive Path : Type where
  | scalar : Path
  | objToggle : Path
  | objItem : String → Path → Path
  | arrToggle : Path
  | arrShrink : Path
  | arrGrow : Path
  | arrItem : Nat → Path → Path
deriving DecidableEq

mutual
/-- Modelled from the spec (§4.2 of the specification; the enumeration
contract of the missing `path.rs`): the canonical depth-first
enumeration of addressable points of a tree. -/
def enumPoints : DisplayValue → List Path
  | .Scalar _ => [Path.scalar]
  | .Object (.mk _ ms e _) =>
    if e then Path.objToggle :: enumMembers ms else [Path.objToggle]
  | .Array (.mk _ vs e nx _ _) =>
    if e then Path.arrToggle :: (enumIdx 0 nx vs ++ [Path.arrShrink, Path.arrGrow])
    else [Path.arrToggle]
termination_by t => sizeOf t
decreasing_by all_goals (simp_wf <;> omega)

/-- Points of an object's members, each nested under `Item(key, ·)`. -/
def enumMembers : List (String × DisplayValue) → List Path
  | [] => []
  | (k, m) :: rest => (enumPoints m).map (Path.objItem k) ++ enumMembers rest
termination_by l => sizeOf l
decreasing_by all_goals (simp_wf <;> omega)

/-- Points of the first `n` items of an array starting at index `i`,
each nested under `Item(index, ·)`. -/
def enumIdx : Nat → Nat → List DisplayValue → List Path
  | _, 0, _ => []
  | _, _ + 1, [] => []
  | i, n + 1, v :: rest => (enumPoints v).map (Path.arrItem i) ++ enumIdx (i + 1) n rest
termination_by i n l => sizeOf l
decreasing_by all_goals (simp_wf <;> omega)
end

/-- The first addressable point of a tree: the bare scalar point, or the
root container's Toggle. -/
def firstPoint : DisplayValue → Path
  | .Scalar _ => Path.scalar
  | .Object _ => Path.objToggle
  | .Array _ => Path.arrToggle

/-- Modelled from the spec (`repair` of the missing `path.rs`): walk the
address from the root; while each segment is structurally valid, descend;
at the first invalid segment return the current container's own Toggle
point, and if the addressed node's variant changed (the container
vanished) signal `none` so that the caller snaps to the first point of
the whole tree. -/
def fixPathAux : Path → DisplayValue → Option Path
  | Path.scalar, .Scalar _ => some Path.scalar
  | Path.objToggle, .Object _ => some Path.objToggle
  | Path.objItem k sub, .Object (.mk _ ms e _) =>
    if e then
      match lookupKey k ms with
      | some m =>
        match fixPathAux sub m with
        | some sub' => some (Path.objItem k sub')
        | none => none
      | none => some Path.objToggle
    else some Path.objToggle
  | Path.arrToggle, .Array _ => some Path.arrToggle
  | Path.arrShrink, .Array (.mk _ _ e _ _ _) =>
    some (if e then Path.arrShrink else Path.arrToggle)
  | Path.arrGrow, .Array (.mk _ _ e _ _ _) =>
    some (if e then Path.arrGrow else Path.arrToggle)
  | Path.arrItem i sub, .Array (.mk _ vs e nx _ _) =>
    if e && i < nx then
      match vs[i]? with
      | some m =>
        match fixPathAux sub m with
        | some sub' => some (Path.arrItem i sub')
        | none => none
      | none => some Path.arrToggle
    else some Path.arrToggle
  | _, _ => none

/-- Modelled from the spec: `Path::fix_path_for_value` of the missing
`path.rs` — the total repair step; a vanished container snaps to the
first point of the whole tree. -/
def fix_path_for_value (p : Path) (t : DisplayValue) : Path :=
  match fixPathAux p t with
  | some q => q
  | none => firstPoint t

/-- Modelled from the spec: `find_next_path` of the missing `path.rs` —
the point immediately following the given one in the canonical
enumeration order, if any. -/
def nextIn : List Path → Path → Option Path
  | a :: b :: rest, p => if a = p then some b else nextIn (b :: rest) p
  | _, _ => none

/-- Modelled from the spec: `find_previous_path` of the missing
`path.rs` — the point immediately preceding the given one in the
canonical enumeration order, if any. -/
def prevIn : List Path → Path → Option Path
  | a :: b :: rest, p => if b = p then some a else prevIn (b :: rest) p
  | _, _ => none

def find_next_path (p : Path) (t : DisplayValue) : Option Path :=
  nextIn (enumPoints t) p

def find_previous_path (p : Path) (t : DisplayValue) : Option Path :=
  prevIn (enumPoints t) p

/-- Replace the binding of key `k` (model of updating through a mutable
`BTreeMap` entry). -/
def setKey (k : String) (m : DisplayValue) :
    List (String × DisplayValue) → List (String × DisplayValue)
  | [] => []
  | (k', v) :: rest => if k = k' then (k, m) :: rest else (k', v) :: setKey k m rest

/-- Modelled from the spec (`act` of the missing `path.rs`, called
`find_and_act_on_element` in `lib.rs`): walk to the addressed point and
dispatch its bound action — Toggle toggles `extended`; Grow grows if
`can_grow` else fails; Shrink shrinks if `can_shrink` else fails; a bare
Scalar point has no action and fails. -/
def find_and_act_on_element : Path → DisplayValue → Option DisplayValue
  | Path.objToggle, .Object o => some (.Object o.toggle_visibility)
  | Path.arrToggle, .Array a => some (.Array a.toggle_visibility)
  | Path.arrGrow, .Array a =>
    if a.can_grow then (a.grow).map .Array else none
  | Path.arrShrink, .Array a =>
    if a.can_shrink then (a.shrink).map .Array else none
  | Path.objItem k sub, .Object (.mk d ms e dc) =>
    match lookupKey k ms with
    | some m =>
      (find_and_act_on_element sub m).map fun m' => .Object (.mk d (setKey k m' ms) e dc)
    | none => none
  | Path.arrItem i sub, .Array (.mk d vs e nx lc dc) =>
    match vs[i]? with
    | some m =>
      (find_and_act_on_element sub m).map fun m' => .Array (.mk d (vs.set i m') e nx lc dc)
    | none => none
  | _, _ => none

/-- The `JsonViewer` widget state of `lib.rs`. -/
structure JsonViewer where
  value : DisplayValue
  active_element : Path

/-- `JsonViewer::fix_active_element_path`. -/
def JsonViewer.fix_active_element_path (st : JsonViewer) : JsonViewer :=
  ⟨st.value, fix_path_for_value st.active_element st.value⟩

/-- `JsonViewer::new`: start from the placeholder `Path::Scalar` address
and immediately repair it. -/
def JsonViewer.new (v : Value) : JsonViewer :=
  JsonViewer.fix_active_element_path ⟨DisplayValue.new v, Path.scalar⟩

/-- `JsonViewer::reset`. -/
def JsonViewer.reset (st : JsonViewer) (v : Value) : JsonViewer :=
  JsonViewer.fix_active_element_path ⟨DisplayValue.new v, st.active_element⟩

/-- `JsonViewer::update`. -/
def JsonViewer.update (st : JsonViewer) (v : Value) : JsonViewer :=
  JsonViewer.fix_active_element_path ⟨st.value.update v, st.active_element⟩

/-- `JsonViewer::select_next`; the boolean is `true` on `Ok(())`, and on
`Err(())` the state is unchanged. -/
def JsonViewer.select_next (st : JsonViewer) : JsonViewer × Bool :=
  match find_next_path st.active_element st.value with
  | some p => (⟨st.value, p⟩, true)
  | none => (st, false)

/-- `JsonViewer::select_previous`; the boolean is `true` on `Ok(())`,
and on `Err(())` the state is unchanged. -/
def JsonViewer.select_previous (st : JsonViewer) : JsonViewer × Bool :=
  match find_previous_path st.active_element st.value with
  | some p => (⟨st.value, p⟩, true)
  | none => (st, false)

/-- `JsonViewer::toggle_active_element`: act on the active point (the
action may fail), then repair the active address either way. -/
def JsonViewer.toggle_active_element (st : JsonViewer) : JsonViewer × Bool :=
  match find_and_act_on_element st.active_element st.value with
  | some t => (JsonViewer.fix_active_element_path ⟨t, st.active_element⟩, true)
  | none => (JsonViewer.fix_active_element_path st, false)

mutual
/-- No `changed`, `description_changed` or `length_changed` flag is set
anywhere in the tree. -/
def noFlags : DisplayValue → Bool
  | .Scalar s => !s.changed
  | .Object (.mk _ ms _ dc) => !dc && noFlagsMembers ms
  | .Array (.mk _ vs _ _ lc dc) => !lc && !dc && noFlagsVals vs
termination_by t => sizeOf t
decreasing_by all_goals (simp_wf <;> omega)

def noFlagsMembers : List (String × DisplayValue) → Bool
  | [] => true
  | (_, m) :: rest => noFlags m && noFlagsMembers rest
termination_by l => sizeOf l
decreasing_by all_goals (simp_wf <;> omega)

def noFlagsVals : List DisplayValue → Bool
  | [] => true
  | v :: rest => noFlags v && noFlagsVals rest
termination_by l => sizeOf l
decreasing_by all_goals (simp_wf <;> omega)
end

mutual
/-- Every container description in the tree is `None`. -/
def treeDescNone : DisplayValue → Bool
  | .Scalar _ => true
  | .Object (.mk d ms _ _) => d.isNone && treeDescNoneMembers ms
  | .Array (.mk d vs _ _ _ _) => d.isNone && treeDescNoneVals vs
termination_by t => sizeOf t
decreasing_by all_goals (simp_wf <;> omega)

def treeDescNoneMembers : List (String × DisplayValue) → Bool
  | [] => true
  | (_, m) :: rest => treeDescNone m && treeDescNoneMembers rest
termination_by l => sizeOf l
decreasing_by all_goals (simp_wf <;> omega)

def treeDescNoneVals : List DisplayValue → Bool
  | [] => true
  | v :: rest => treeDescNone v && treeDescNoneVals rest
termination_by l => sizeOf l
decreasing_by all_goals (simp_wf <;> omega)
end

mutual
/-- No `description_changed` flag is set anywhere in the tree. -/
def noDescChanged : DisplayValue → Bool
  | .Scalar _ => true
  | .Object (.mk _ ms _ dc) => !dc && noDescChangedMembers ms
  | .Array (.mk _ vs _ _ _ dc) => !dc && noDescChangedVals vs
termination_by t => sizeOf t
decreasing_by all_goals (simp_wf <;> omega)

def noDescChangedMembers : List (String × DisplayValue) → Bool
  | [] => true
  | (_, m) :: rest => noDescChanged m && noDescChangedMembers rest
termination_by l => sizeOf l
decreasing_by all_goals (simp_wf <;> omega)

def noDescChangedVals : List DisplayValue → Bool
  | [] => true
  | v :: rest => noDescChanged v && noDescChangedVals rest
termination_by l => sizeOf l
decreasing_by all_goals (simp_wf <;> omega)
end

mutual
/-- Every container description in the source value is `None`. -/
def valueDescNone : Value → Bool
  | .scalar _ => true
  | .map d pairs => d.isNone && valueDescNonePairs pairs
  | .arr d items => d.isNone && valueDescNoneList items
termination_by v => sizeOf v
decreasing_by all_goals (simp_wf <;> omega)

def valueDescNonePairs : List (String × Value) → Bool
  | [] => true
  | (_, v) :: rest => valueDescNone v && valueDescNonePairs rest
termination_by l => sizeOf l
decreasing_by all_goals (simp_wf <;> omega)

def valueDescNoneList : List Value → Bool
  | [] => true
  | v :: rest => valueDescNone v && valueDescNoneList rest
termination_by l => sizeOf l
decreasing_by all_goals (simp_wf <;> omega)
end

mutual
/-- The flag- and fold-state-free content of a display tree: texts,
descriptions, sorted member lists and item lists. -/
def proj : DisplayValue → Value
  | .Scalar s => .scalar s.value
  | .Object (.mk d ms _ _) => .map d (projMembers ms)
  | .Array (.mk d vs _ _ _ _) => .arr d (projVals vs)
termination_by t => sizeOf t
decreasing_by all_goals (simp_wf <;> omega)

def projMembers : List (String × DisplayValue) → List (String × Value)
  | [] => []
  | (k, m) :: rest => (k, proj m) :: projMembers rest
termination_by l => sizeOf l
decreasing_by all_goals (simp_wf <;> omega)

def projVals : List DisplayValue → List Value
  | [] => []
  | v :: rest => proj v :: projVals rest
termination_by l => sizeOf l
decreasing_by all_goals (simp_wf <;> omega)
end

mutual
/-- The canonical form of a source value: map pairs deduplicated (last
occurrence of a key wins, as with repeated `BTreeMap` insertion) and
key-sorted, recursively. -/
def canon : Value → Value
  | .scalar s => .scalar s
  | .map d pairs => .map d (canonMembers [] pairs)
  | .arr d items => .arr d (canonVals items)
termination_by v => sizeOf v
decreasing_by all_goals (simp_wf <;> omega)

def canonMembers (acc : List (String × Value)) : List (String × Value) → List (String × Value)
  | [] => acc
  | (k, v) :: rest => canonMembers (btreeInsert k (canon v) acc) rest
termination_by l => sizeOf l
decreasing_by all_goals (simp_wf <;> omega)

def canonVals : List Value → List Value
  | [] => []
  | v :: rest => canon v :: canonVals rest
termination_by l => sizeOf l
decreasing_by all_goals (simp_wf <;> omega)
end

/-- The binding for key `k` produced by reconciling the pair `(k, v)`
against the old members `oms` (the body of the member loop of
`DisplayObject::update`). -/
def updOrNew (oms : List (String × DisplayValue)) (k : String) (v : Value) : DisplayValue :=
  match lookupKey k oms with
  | some m => m.update v
  | none => DisplayValue.new v

/-- The last binding of key `k` in an (unsorted, possibly duplicated)
pair list — the binding that survives repeated `BTreeMap` insertion. -/
def lastOcc {α : Type} (k : String) : List (String × α) → Option α
  | [] => none
  | (k', v) :: rest =>
    match lastOcc k rest with
    | some r => some r
    | none => if k = k' then some v else none

/-- Induction over `Value` with the member/item lists handled by
list membership. -/
theorem Value.memInduction (P : Value → Prop)
    (hs : ∀ s, P (.scalar s))
    (hm : ∀ d pairs, (∀ p ∈ pairs, P p.2) → P (.map d pairs))
    (ha : ∀ d items, (∀ v ∈ items, P v) → P (.arr d items)) :
    ∀ v, P v
  | .scalar s => hs s
  | .map d pairs => hm d pairs fun p hp =>
      Value.memInduction P hs hm ha p.2
  | .arr d items => ha d items fun v hv =>
      Value.memInduction P hs hm ha v
termination_by v => sizeOf v
decreasing_by
  · have h1 := List.sizeOf_lt_of_mem hp
    obtain ⟨a, b⟩ := p
    simp_wf
    simp at h1
    omega
  · have h1 := List.sizeOf_lt_of_mem hv
    simp_wf
    omega

/-- Induction over `DisplayValue` with the member/item lists handled by
list membership. -/
theorem DisplayValue.treeMemInduction (P : DisplayValue → Prop)
    (hs : ∀ s, P (.Scalar s))
    (ho : ∀ d ms e dc, (∀ p ∈ ms, P p.2) → P (.Object (.mk d ms e dc)))
    (ha : ∀ d vs e nx lc dc, (∀ v ∈ vs, P v) → P (.Array (.mk d vs e nx lc dc))) :
    ∀ t, P t
  | .Scalar s => hs s
  | .Object (.mk d ms e dc) => ho d ms e dc fun p hp =>
      DisplayValue.treeMemInduction P hs ho ha p.2
  | .Array (.mk d vs e nx lc dc) => ha d vs e nx lc dc fun v hv =>
      DisplayValue.treeMemInduction P hs ho ha v
termination_by t => sizeOf t
decreasing_by
  · have h1 := List.sizeOf_lt_of_mem hp
    obtain ⟨a, b⟩ := p
    simp_wf
    simp at h1
    omega
  · have h1 := List.sizeOf_lt_of_mem hv
    simp_wf
    omega

/-- Keys strictly increase along the association list (the `BTreeMap`
representation invariant). -/
def keyLt {α : Type} (a b : String × α) : Prop := a.1 < b.1

theorem mem_btreeInsert {α : Type} {k : String} {v : α} {l : List (String × α)}
    {x : String × α} (hx : x ∈ btreeInsert k v l) : x = (k, v) ∨ x ∈ l := by
  induction l with
  | nil => simp [btreeInsert] at hx; simp [hx]
  | cons hd rest ih =>
    obtain ⟨k', v'⟩ := hd
    simp only [btreeInsert] at hx
    by_cases h1 : k < k'
    · simp [h1] at hx
      rcases hx with h | h | h
      · exact Or.inl (by simp [h])
      · exact Or.inr (by simp [h])
      · exact Or.inr (by simp [h])
    · by_cases h2 : k = k'
      · rw [if_neg h1, if_pos h2] at hx
        rcases List.mem_cons.mp hx with h | h
        · exact Or.inl (by rw [h, h2])
        · exact Or.inr (List.mem_cons_of_mem _ h)
      · rw [if_neg h1, if_neg h2] at hx
        rcases List.mem_cons.mp hx with h | h
        · exact Or.inr (by simp [h])
        · rcases ih h with h3 | h3
          · exact Or.inl h3
          · exact Or.inr (by simp [h3])

theorem btreeInsert_pairwise {α : Type} {k : String} {v : α} {l : List (String × α)}
    (hl : l.Pairwise keyLt) : (btreeInsert k v l).Pairwise keyLt := by
  induction l with
  | nil => simp [btreeInsert, keyLt]
  | cons hd rest ih =>
    obtain ⟨k', v'⟩ := hd
    rw [List.pairwise_cons] at hl
    obtain ⟨hhd, hrest⟩ := hl
    simp only [btreeInsert]
    by_cases h1 : k < k'
    · rw [if_pos h1]
      refine List.Pairwise.cons ?_ (List.Pairwise.cons hhd hrest)
      intro x hx
      rcases List.mem_cons.mp hx with h | h
      · subst h
        simpa [keyLt] using h1
      · have := hhd x h
        simp only [keyLt] at *
        exact lt_trans h1 this
    · by_cases h2 : k = k'
      · rw [if_neg h1, if_pos h2]
        refine List.Pairwise.cons ?_ hrest
        intro x hx
        have := hhd x hx
        simp only [keyLt] at *
        rw [h2]
        exact this
      · rw [if_neg h1, if_neg h2]
        refine List.Pairwise.cons ?_ (ih hrest)
        intro x hx
        rcases mem_btreeInsert hx with h | h
        · subst h
          simp only [keyLt]
          rcases lt_trichotomy k k' with h | h | h
          · exact absurd h h1
          · exact absurd h h2
          · exact h
        · exact hhd x h

theorem lookupKey_btreeInsert {α : Type} (k k' : String) (v : α) (l : List (String × α)) :
    lookupKey k (btreeInsert k' v l) =
      if k = k' then some v else lookupKey k l := by
  induction l with
  | nil => simp [btreeInsert, lookupKey]
  | cons hd rest ih =>
    obtain ⟨k'', v''⟩ := hd
    simp only [btreeInsert]
    by_cases h1 : k' < k''
    · simp [h1, lookupKey]
    · by_cases h2 : k' = k''
      · subst h2
        by_cases h3 : k = k' <;> simp [h1, h3, lookupKey]
      · by_cases h3 : k = k''
        · subst h3
          have h4 : ¬(k = k') := fun h => h2 h.symm
          simp [h1, h2, h4, lookupKey]
        · simp [h1, h2, h3, lookupKey, ih]

theorem lookupKey_of_mem_pairwise {α : Type} {k : String} {m : α}
    {l : List (String × α)} (hl : l.Pairwise keyLt) (hm : (k, m) ∈ l) :
    lookupKey k l = some m := by
  induction l with
  | nil => simp at hm
  | cons hd rest ih =>
    obtain ⟨k', v'⟩ := hd
    rw [List.pairwise_cons] at hl
    obtain ⟨hhd, hrest⟩ := hl
    rcases List.mem_cons.mp hm with h | h
    · simp only [Prod.mk.injEq] at h
      simp [lookupKey, h.1, h.2]
    · have hk : k' < k := by
        have := hhd (k, m) h
        simpa [keyLt] using this
      have hne : ¬(k = k') := fun he => by subst he; exact lt_irrefl k hk
      simp [lookupKey, hne, ih hrest h]

theorem lastOcc_mem {α : Type} {k : String} {v : α} {l : List (String × α)}
    (h : lastOcc k l = some v) : (k, v) ∈ l := by
  induction l with
  | nil => simp [lastOcc] at h
  | cons hd rest ih =>
    obtain ⟨k', v'⟩ := hd
    simp only [lastOcc] at h
    cases hlast : lastOcc k rest with
    | some r =>
      rw [hlast] at h
      simp only [Option.some.injEq] at h
      subst h
      exact List.mem_cons_of_mem _ (ih hlast)
    | none =>
      rw [hlast] at h
      by_cases h2 : k = k'
      · simp only [h2, if_true, Option.some.injEq] at h
        subst h2; subst h
        exact List.mem_cons_self _ _
      · simp [h2] at h

theorem lookupKey_updateMembers (oms : List (String × DisplayValue)) :
    ∀ (pairs : List (String × Value)) (acc : List (String × DisplayValue)) (k : String),
      lookupKey k (updateMembers oms acc pairs) =
        match lastOcc k pairs with
        | some v => some (updOrNew oms k v)
        | none => lookupKey k acc := by
  intro pairs
  induction pairs with
  | nil => intro acc k; simp [updateMembers, lastOcc]
  | cons hd rest ih =>
    intro acc k
    obtain ⟨k', v⟩ := hd
    rw [show updateMembers oms acc ((k', v) :: rest) =
        updateMembers oms (btreeInsert k' (updOrNew oms k' v) acc) rest by
      simp [updateMembers, updOrNew]]
    rw [ih]
    simp only [lastOcc]
    cases hlast : lastOcc k rest with
    | some r => simp
    | none =>
      simp only
      rw [lookupKey_btreeInsert]
      by_cases h2 : k = k'
      · subst h2; simp
      · simp [h2]

theorem lookupKey_newMembers :
    ∀ (pairs : List (String × Value)) (acc : List (String × DisplayValue)) (k : String),
      lookupKey k (newMembers acc pairs) =
        match lastOcc k pairs with
        | some v => some (DisplayValue.new v)
        | none => lookupKey k acc := by
  intro pairs
  induction pairs with
  | nil => intro acc k; simp [newMembers, lastOcc]
  | cons hd rest ih =>
    intro acc k
    obtain ⟨k', v⟩ := hd
    rw [show newMembers acc ((k', v) :: rest) =
        newMembers (btreeInsert k' (DisplayValue.new v) acc) rest by
      simp [newMembers]]
    rw [ih]
    simp only [lastOcc]
    cases hlast : lastOcc k rest with
    | some r => simp
    | none =>
      simp only
      rw [lookupKey_btreeInsert]
      by_cases h2 : k = k'
      · subst h2; simp
      · simp [h2]

theorem lookupKey_canonMembers :
    ∀ (pairs : List (String × Value)) (acc : List (String × Value)) (k : String),
      lookupKey k (canonMembers acc pairs) =
        match lastOcc k pairs with
        | some v => some (canon v)
        | none => lookupKey k acc := by
  intro pairs
  induction pairs with
  | nil => intro acc k; simp [canonMembers, lastOcc]
  | cons hd rest ih =>
    intro acc k
    obtain ⟨k', v⟩ := hd
    rw [show canonMembers acc ((k', v) :: rest) =
        canonMembers (btreeInsert k' (canon v) acc) rest by
      simp [canonMembers]]
    rw [ih]
    simp only [lastOcc]
    cases hlast : lastOcc k rest with
    | some r => simp
    | none =>
      simp only
      rw [lookupKey_btreeInsert]
      by_cases h2 : k = k'
      · subst h2; simp
      · simp [h2]

theorem updateMembers_pairwise (oms : List (String × DisplayValue)) :
    ∀ (pairs : List (String × Value)) (acc : List (String × DisplayValue)),
      acc.Pairwise keyLt → (updateMembers oms acc pairs).Pairwise keyLt := by
  intro pairs
  induction pairs with
  | nil => intro acc h; simpa [updateMembers] using h
  | cons hd rest ih =>
    intro acc h
    obtain ⟨k', v⟩ := hd
    rw [show updateMembers oms acc ((k', v) :: rest) =
        updateMembers oms (btreeInsert k' (updOrNew oms k' v) acc) rest by
      simp [updateMembers, updOrNew]]
    exact ih _ (btreeInsert_pairwise h)

theorem newMembers_pairwise :
    ∀ (pairs : List (String × Value)) (acc : List (String × DisplayValue)),
      acc.Pairwise keyLt → (newMembers acc pairs).Pairwise keyLt := by
  intro pairs
  induction pairs with
  | nil => intro acc h; simpa [newMembers] using h
  | cons hd rest ih =>
    intro acc h
    obtain ⟨k', v⟩ := hd
    rw [show newMembers acc ((k', v) :: rest) =
        newMembers (btreeInsert k' (DisplayValue.new v) acc) rest by
      simp [newMembers]]
    exact ih _ (btreeInsert_pairwise h)

theorem noFlagsMembers_iff (l : List (String × DisplayValue)) :
    noFlagsMembers l = true ↔ ∀ p ∈ l, noFlags p.2 = true := by
  induction l with
  | nil => simp [noFlagsMembers]
  | cons hd rest ih =>
    obtain ⟨k, m⟩ := hd
    simp [noFlagsMembers, ih]

theorem noFlagsVals_iff (l : List DisplayValue) :
    noFlagsVals l = true ↔ ∀ v ∈ l, noFlags v = true := by
  induction l with
  | nil => simp [noFlagsVals]
  | cons hd rest ih => simp [noFlagsVals, ih]

theorem treeDescNoneMembers_iff (l : List (String × DisplayValue)) :
    treeDescNoneMembers l = true ↔ ∀ p ∈ l, treeDescNone p.2 = true := by
  induction l with
  | nil => simp [treeDescNoneMembers]
  | cons hd rest ih =>
    obtain ⟨k, m⟩ := hd
    simp [treeDescNoneMembers, ih]

theorem treeDescNoneVals_iff (l : List DisplayValue) :
    treeDescNoneVals l = true ↔ ∀ v ∈ l, treeDescNone v = true := by
  induction l with
  | nil => simp [treeDescNoneVals]
  | cons hd rest ih => simp [treeDescNoneVals, ih]

theorem noDescChangedMembers_iff (l : List (String × DisplayValue)) :
    noDescChangedMembers l = true ↔ ∀ p ∈ l, noDescChanged p.2 = true := by
  induction l with
  | nil => simp [noDescChangedMembers]
  | cons hd rest ih =>
    obtain ⟨k, m⟩ := hd
    simp [noDescChangedMembers, ih]

theorem noDescChangedVals_iff (l : List DisplayValue) :
    noDescChangedVals l = true ↔ ∀ v ∈ l, noDescChanged v = true := by
  induction l with
  | nil => simp [noDescChangedVals]
  | cons hd rest ih => simp [noDescChangedVals, ih]

theorem valueDescNonePairs_iff (l : List (String × Value)) :
    valueDescNonePairs l = true ↔ ∀ p ∈ l, valueDescNone p.2 = true := by
  induction l with
  | nil => simp [valueDescNonePairs]
  | cons hd rest ih =>
    obtain ⟨k, v⟩ := hd
    simp [valueDescNonePairs, ih]

theorem valueDescNoneList_iff (l : List Value) :
    valueDescNoneList l = true ↔ ∀ v ∈ l, valueDescNone v = true := by
  induction l with
  | nil => simp [valueDescNoneList]
  | cons hd rest ih => simp [valueDescNoneList, ih]

theorem newVals_eq_map (l : List Value) : newVals l = l.map DisplayValue.new := by
  induction l with
  | nil => simp [newVals]
  | cons hd rest ih => simp [newVals, ih]

theorem canonVals_eq_map (l : List Value) : canonVals l = l.map canon := by
  induction l with
  | nil => simp [canonVals]
  | cons hd rest ih => simp [canonVals, ih]

theorem projVals_eq_map (l : List DisplayValue) : projVals l = l.map proj := by
  induction l with
  | nil => simp [projVals]
  | cons hd rest ih => simp [projVals, ih]

theorem projMembers_eq_map (l : List (String × DisplayValue)) :
    projMembers l = l.map fun p => (p.1, proj p.2) := by
  induction l with
  | nil => simp [projMembers]
  | cons hd rest ih =>
    obtain ⟨k, m⟩ := hd
    simp [projMembers, ih]

theorem visitList_eq_map (l : List JsonValue) : visitList l = l.map JsonValue.visit := by
  induction l with
  | nil => simp [visitList]
  | cons hd rest ih => simp [visitList, ih]

theorem visitPairs_eq_map (l : List (String × JsonValue)) :
    visitPairs l = l.map fun p => (p.1, p.2.visit) := by
  induction l with
  | nil => simp [visitPairs]
  | cons hd rest ih =>
    obtain ⟨k, v⟩ := hd
    simp [visitPairs, ih]

theorem updateVals_length (os : List DisplayValue) (l : List Value) :
    (updateVals os l).length = l.length := by
  induction l generalizing os with
  | nil => simp [updateVals]
  | cons hd rest ih =>
    cases os with
    | nil => simp [updateVals, ih]
    | cons o os' => simp [updateVals, ih]

theorem updateVals_getElem? (os : List DisplayValue) (l : List Value) (i : Nat) :
    (updateVals os l)[i]? = (l[i]?).map fun v =>
      match os[i]? with
      | some o => o.update v
      | none => DisplayValue.new v := by
  induction l generalizing os i with
  | nil => simp [updateVals]
  | cons hd rest ih =>
    cases os with
    | nil =>
      cases i with
      | zero => simp [updateVals]
      | succ j => simpa [updateVals] using ih [] j
    | cons o os' =>
      cases i with
      | zero => simp [updateVals]
      | succ j => simpa [updateVals] using ih os' j

theorem lookupKey_projMembers (k : String) (ms : List (String × DisplayValue)) :
    lookupKey k (projMembers ms) = (lookupKey k ms).map proj := by
  induction ms with
  | nil => simp [projMembers, lookupKey]
  | cons hd rest ih =>
    obtain ⟨k', m⟩ := hd
    by_cases h : k = k' <;> simp [projMembers, lookupKey, h, ih]

theorem projMembers_btreeInsert (k : String) (m : DisplayValue)
    (acc : List (String × DisplayValue)) :
    projMembers (btreeInsert k m acc) = btreeInsert k (proj m) (projMembers acc) := by
  induction acc with
  | nil => simp [btreeInsert, projMembers]
  | cons hd rest ih =>
    obtain ⟨k', m'⟩ := hd
    simp only [btreeInsert, projMembers]
    by_cases h1 : k < k'
    · simp [h1, projMembers]
    · by_cases h2 : k = k'
      · simp [h1, h2, projMembers]
      · simp [h1, h2, projMembers, ih]

/-- Freshly constructed trees carry no change flags. -/
theorem noFlags_new : ∀ v, noFlags (DisplayValue.new v) = true := by
  intro v
  induction v using Value.memInduction with
  | hs s => simp [DisplayValue.new, DisplayScalar.new, noFlags]
  | hm d pairs ih =>
    simp only [DisplayValue.new, noFlags, Bool.not_false, Bool.true_and]
    rw [noFlagsMembers_iff]
    rintro ⟨k, m⟩ hp
    have hsorted := newMembers_pairwise pairs [] (by simp)
    have hlk := lookupKey_of_mem_pairwise hsorted hp
    rw [lookupKey_newMembers] at hlk
    cases hlast : lastOcc k pairs with
    | none => rw [hlast] at hlk; simp [lookupKey] at hlk
    | some v' =>
      rw [hlast] at hlk
      simp only [Option.some.injEq] at hlk
      rw [← hlk]
      exact ih (k, v') (lastOcc_mem hlast)
  | ha d items ih =>
    simp only [DisplayValue.new, noFlags, Bool.not_false, Bool.true_and]
    rw [noFlagsVals_iff]
    intro x hx
    rw [newVals_eq_map] at hx
    obtain ⟨v, hv, rfl⟩ := List.mem_map.mp hx
    exact ih v hv

theorem projMembers_newMembers (pairs : List (String × Value))
    (h : ∀ p ∈ pairs, proj (DisplayValue.new p.2) = canon p.2) :
    ∀ acc, projMembers (newMembers acc pairs) = canonMembers (projMembers acc) pairs := by
  induction pairs with
  | nil => intro acc; simp [newMembers, canonMembers]
  | cons hd rest ih =>
    intro acc
    obtain ⟨k, v⟩ := hd
    rw [show newMembers acc ((k, v) :: rest) =
        newMembers (btreeInsert k (DisplayValue.new v) acc) rest by simp [newMembers]]
    rw [ih (fun p hp => h p (List.mem_cons_of_mem _ hp)) _]
    rw [projMembers_btreeInsert]
    rw [h (k, v) (List.mem_cons_self _ _)]
    simp [canonMembers]

theorem projMembers_updateMembers (oms : List (String × DisplayValue))
    (pairs : List (String × Value))
    (h1 : ∀ p ∈ pairs, ∀ t, proj (DisplayValue.update t p.2) = canon p.2)
    (h2 : ∀ p ∈ pairs, proj (DisplayValue.new p.2) = canon p.2) :
    ∀ acc, projMembers (updateMembers oms acc pairs) = canonMembers (projMembers acc) pairs := by
  induction pairs with
  | nil => intro acc; simp [updateMembers, canonMembers]
  | cons hd rest ih =>
    intro acc
    obtain ⟨k, v⟩ := hd
    rw [show updateMembers oms acc ((k, v) :: rest) =
        updateMembers oms (btreeInsert k (updOrNew oms k v) acc) rest by
      simp [updateMembers, updOrNew]]
    rw [ih (fun p hp => h1 p (List.mem_cons_of_mem _ hp))
        (fun p hp => h2 p (List.mem_cons_of_mem _ hp)) _]
    rw [projMembers_btreeInsert]
    have hproj : proj (updOrNew oms k v) = canon v := by
      unfold updOrNew
      cases lookupKey k oms with
      | some m => exact h1 (k, v) (List.mem_cons_self _ _) m
      | none => exact h2 (k, v) (List.mem_cons_self _ _)
    rw [hproj]
    simp [canonMembers]

theorem projVals_updateVals (ovs : List DisplayValue) (items : List Value)
    (h1 : ∀ v ∈ items, ∀ t, proj (DisplayValue.update t v) = canon v)
    (h2 : ∀ v ∈ items, proj (DisplayValue.new v) = canon v) :
    projVals (updateVals ovs items) = canonVals items := by
  induction items generalizing ovs with
  | nil => simp [updateVals, projVals, canonVals]
  | cons hd rest ih =>
    cases ovs with
    | nil =>
      simp only [updateVals, projVals, canonVals]
      rw [h2 hd (List.mem_cons_self _ _),
        ih [] (fun v hv => h1 v (List.mem_cons_of_mem _ hv))
          (fun v hv => h2 v (List.mem_cons_of_mem _ hv))]
    | cons o os' =>
      simp only [updateVals, projVals, canonVals]
      rw [h1 hd (List.mem_cons_self _ _) o,
        ih os' (fun v hv => h1 v (List.mem_cons_of_mem _ hv))
          (fun v hv => h2 v (List.mem_cons_of_mem _ hv))]

/-- Reconciliation and fresh construction produce the same flag-free
content, namely the canonical form of the new value. -/
theorem proj_update_and_new :
    ∀ v, (∀ t, proj (DisplayValue.update t v) = canon v) ∧
      proj (DisplayValue.new v) = canon v := by
  intro v
  induction v using Value.memInduction with
  | hs s =>
    constructor
    · intro t
      cases t with
      | Scalar s' => simp [DisplayValue.update, DisplayScalar.update, proj, canon]
      | Object o => simp [DisplayValue.update, DisplayValue.new, DisplayScalar.new, proj, canon]
      | Array a => simp [DisplayValue.update, DisplayValue.new, DisplayScalar.new, proj, canon]
    · simp [DisplayValue.new, DisplayScalar.new, proj, canon]
  | hm d pairs ih =>
    have hupd : ∀ p ∈ pairs, ∀ t, proj (DisplayValue.update t p.2) = canon p.2 :=
      fun p hp => (ih p hp).1
    have hnew : ∀ p ∈ pairs, proj (DisplayValue.new p.2) = canon p.2 :=
      fun p hp => (ih p hp).2
    have hnewEq : proj (DisplayValue.new (.map d pairs)) = canon (.map d pairs) := by
      simp only [DisplayValue.new, proj, canon]
      rw [projMembers_newMembers pairs hnew []]
      simp [projMembers]
    refine ⟨?_, hnewEq⟩
    intro t
    cases t with
    | Scalar s' =>
      have : DisplayValue.update (.Scalar s') (.map d pairs)
          = DisplayValue.new (.map d pairs) := by
        simp [DisplayValue.update, DisplayValue.new]
      rw [this, hnewEq]
    | Object o =>
      obtain ⟨od, oms, ext, odc⟩ := o
      simp only [DisplayValue.update, proj, canon, DisplayObject.members,
        DisplayObject.description, DisplayObject.extended]
      rw [projMembers_updateMembers oms pairs hupd hnew []]
      simp [projMembers]
    | Array a =>
      have : DisplayValue.update (.Array a) (.map d pairs)
          = DisplayValue.new (.map d pairs) := by
        simp [DisplayValue.update, DisplayValue.new]
      rw [this, hnewEq]
  | ha d items ih =>
    have hupd : ∀ v ∈ items, ∀ t, proj (DisplayValue.update t v) = canon v :=
      fun v hv => (ih v hv).1
    have hnew : ∀ v ∈ items, proj (DisplayValue.new v) = canon v :=
      fun v hv => (ih v hv).2
    have hnewEq : proj (DisplayValue.new (.arr d items)) = canon (.arr d items) := by
      simp only [DisplayValue.new, proj, canon]
      rw [projVals_eq_map, newVals_eq_map, canonVals_eq_map, List.map_map]
      congr 1
      exact List.map_congr_left fun v hv => hnew v hv
    refine ⟨?_, hnewEq⟩
    intro t
    cases t with
    | Scalar s' =>
      have : DisplayValue.update (.Scalar s') (.arr d items)
          = DisplayValue.new (.arr d items) := by
        simp [DisplayValue.update, DisplayValue.new]
      rw [this, hnewEq]
    | Object o =>
      have : DisplayValue.update (.Object o) (.arr d items)
          = DisplayValue.new (.arr d items) := by
        simp [DisplayValue.update, DisplayValue.new]
      rw [this, hnewEq]
    | Array a =>
      obtain ⟨od, ovs, ext, onx, olc, odc⟩ := a
      simp only [DisplayValue.update, proj, canon, DisplayArray.values,
        DisplayArray.description, DisplayArray.extended, DisplayArray.num_extended]
      rw [projVals_updateVals ovs items hupd hnew]

/-- Reconciling a tree whose flag-free content already equals the
canonical form of the incoming value sets no change flags. -/
theorem noFlags_update_of_proj :
    ∀ v t, proj t = canon v → noFlags (DisplayValue.update t v) = true := by
  intro v
  induction v using Value.memInduction with
  | hs s =>
    intro t h
    cases t with
    | Scalar s' =>
      simp only [proj, canon, Value.scalar.injEq] at h
      simp [DisplayValue.update, DisplayScalar.update, noFlags, h]
    | Object o => obtain ⟨od, oms, ext, odc⟩ := o; simp [proj, canon] at h
    | Array a => obtain ⟨od, ovs, ext, onx, olc, odc⟩ := a; simp [proj, canon] at h
  | hm d pairs ih =>
    intro t h
    cases t with
    | Scalar s' => simp [proj, canon] at h
    | Array a => obtain ⟨od, ovs, ext, onx, olc, odc⟩ := a; simp [proj, canon] at h
    | Object o =>
      obtain ⟨od, oms, ext, odc⟩ := o
      simp only [proj, canon, Value.map.injEq] at h
      obtain ⟨hd, hms⟩ := h
      subst hd
      simp only [DisplayValue.update, noFlags, DisplayObject.members,
        DisplayObject.description, DisplayObject.extended, bne_self_eq_false,
        Bool.not_false, Bool.true_and]
      rw [noFlagsMembers_iff]
      rintro ⟨k, m⟩ hp
      have hsorted := updateMembers_pairwise oms pairs [] (by simp)
      have hlk := lookupKey_of_mem_pairwise hsorted hp
      rw [lookupKey_updateMembers] at hlk
      cases hlast : lastOcc k pairs with
      | none => rw [hlast] at hlk; simp [lookupKey] at hlk
      | some v' =>
        rw [hlast] at hlk
        simp only [Option.some.injEq] at hlk
        rw [← hlk]
        cases hfind : lookupKey k oms with
        | some m0 =>
          have h1 : lookupKey k (projMembers oms) = some (proj m0) := by
            rw [lookupKey_projMembers, hfind]; rfl
          rw [hms, lookupKey_canonMembers, hlast] at h1
          simp only [Option.some.injEq] at h1
          simp only [updOrNew, hfind]
          exact ih (k, v') (lastOcc_mem hlast) m0 h1.symm
        | none =>
          simp only [updOrNew, hfind]
          exact noFlags_new v'
  | ha d items ih =>
    intro t h
    cases t with
    | Scalar s' => simp [proj, canon] at h
    | Object o => obtain ⟨od, oms, ext, odc⟩ := o; simp [proj, canon] at h
    | Array a =>
      obtain ⟨od, ovs, ext, onx, olc, odc⟩ := a
      simp only [proj, canon, Value.arr.injEq] at h
      obtain ⟨hd, hvs⟩ := h
      subst hd
      have hlen : ovs.length = items.length := by
        have := congrArg List.length hvs
        simpa [projVals_eq_map, canonVals_eq_map] using this
      have hulen : (updateVals ovs items).length = items.length := updateVals_length ovs items
      simp only [DisplayValue.update, noFlags, DisplayArray.values,
        DisplayArray.description, DisplayArray.extended, DisplayArray.num_extended]
      rw [hulen, hlen]
      simp only [bne_self_eq_false, Bool.not_false, Bool.true_and]
      rw [noFlagsVals_iff]
      intro x hx
      obtain ⟨i, hi⟩ := List.mem_iff_getElem?.mp hx
      rw [updateVals_getElem?] at hi
      cases hit : items[i]? with
      | none => rw [hit] at hi; simp at hi
      | some v' =>
        rw [hit] at hi
        have hilen : i < items.length := by
          by_contra hc
          rw [List.getElem?_eq_none (Nat.le_of_not_lt hc)] at hit
          exact Option.noConfusion hit
        have hov : ∃ o, ovs[i]? = some o := by
          have hlt : i < ovs.length := by omega
          exact ⟨ovs.get ⟨i, hlt⟩, by simp [List.getElem?_eq_getElem hlt]⟩
        obtain ⟨o, ho⟩ := hov
        rw [ho] at hi
        simp only [Option.map_some', Option.some.injEq] at hi
        have hpo : proj o = canon v' := by
          have h1 : (projVals ovs)[i]? = some (proj o) := by
            rw [projVals_eq_map, List.getElem?_map, ho]; rfl
          rw [hvs, canonVals_eq_map, List.getElem?_map, hit] at h1
          have h2 : canon v' = proj o := by simpa using h1
          exact h2.symm
        rw [← hi]
        exact ih v' (List.getElem?_mem hit) o hpo

theorem lookupKey_mem {α : Type} {k : String} {m : α} :
    ∀ {l : List (String × α)}, lookupKey k l = some m → (k, m) ∈ l := by
  intro l
  induction l with
  | nil => intro h; simp [lookupKey] at h
  | cons hd rest ih =>
    obtain ⟨k', v⟩ := hd
    intro h
    by_cases h2 : k = k'
    · rw [lookupKey, if_pos h2] at h
      simp only [Option.some.injEq] at h
      subst h2; subst h
      exact List.mem_cons_self _ _
    · rw [lookupKey, if_neg h2] at h
      exact List.mem_cons_of_mem _ (ih h)

/-- The Rust-side mismatch test of `DisplayValue::update`'s match: the
old node and the incoming value have the same variant. -/
def variantMatches : DisplayValue → Value → Bool
  | .Scalar _, .scalar _ => true
  | .Object _, .map _ _ => true
  | .Array _, .arr _ _ => true
  | _, _ => false

/-- C2: for every value `v`, calling `update(v)` twice in a row yields a
tree in which no `changed`, `description_changed` or `length_changed`
flag is set at any node. -/
theorem claim_C2_update_idempotence (st : JsonViewer) (v : Value) :
    noFlags ((JsonViewer.update (JsonViewer.update st v) v).value) = true := by
  show noFlags ((st.value.update v).update v) = true
  exact noFlags_update_of_proj v _ ((proj_update_and_new v).1 st.value)

/-- C3: reconciling an old array node against new items pairwise
reconciles by index (`old[i].update new[i]` while the old iterator
lasts, fresh construction beyond it), keeps the result length equal to
the new length, sets `num_extended = min(old.num_extended, new.length)`
(never auto-grows), `length_changed` iff the lengths differ,
`description_changed` iff the descriptions differ, and carries
`extended` over. -/
theorem claim_C3_array_update (old : DisplayArray) (d : Option String) (items : List Value) :
    DisplayValue.update (.Array old) (.arr d items) = .Array (DisplayArray.update old d items) ∧
    (DisplayArray.update old d items).values.length = items.length ∧
    (∀ i : Nat, (DisplayArray.update old d items).values[i]? =
      (items[i]?).map fun v =>
        match old.values[i]? with
        | some o => o.update v
        | none => DisplayValue.new v) ∧
    (DisplayArray.update old d items).num_extended = min old.num_extended items.length ∧
    (DisplayArray.update old d items).length_changed = (old.values.length != items.length) ∧
    (DisplayArray.update old d items).description_changed = (old.description != d) ∧
    (DisplayArray.update old d items).extended = old.extended := by
  obtain ⟨od, ovs, ext, onx, olc, odc⟩ := old
  refine ⟨DisplayValue.update_arr _ _ _, ?_, ?_, ?_, ?_, ?_, ?_⟩
  · simp [DisplayArray.update, updateVals_length]
  · intro i
    simp [DisplayArray.update, updateVals_getElem?]
  · simp [DisplayArray.update, updateVals_length]
  · simp [DisplayArray.update, updateVals_length]
  · simp [DisplayArray.update]
  · simp [DisplayArray.update]

/-- C4: reconciling an old object node against new pairs reconciles each
new pair against the old member of the same key when it exists and
constructs it fresh otherwise (the last occurrence of a duplicated key
wins, as with `BTreeMap` insertion), drops keys absent from the new
value, keeps the members key-sorted, carries `extended` over, and sets
`description_changed` iff the descriptions differ. -/
theorem claim_C4_object_update (old : DisplayObject) (d : Option String)
    (pairs : List (String × Value)) :
    DisplayValue.update (.Object old) (.map d pairs) = .Object (DisplayObject.update old d pairs) ∧
    (DisplayObject.update old d pairs).extended = old.extended ∧
    (DisplayObject.update old d pairs).description_changed = (old.description != d) ∧
    (DisplayObject.update old d pairs).members.Pairwise keyLt ∧
    (∀ k, lookupKey k (DisplayObject.update old d pairs).members =
      (lastOcc k pairs).map fun v => updOrNew old.members k v) ∧
    (∀ k, lastOcc k pairs = none →
      lookupKey k (DisplayObject.update old d pairs).members = none) ∧
    (∀ k m v, lookupKey k old.members = some m → lastOcc k pairs = some v →
      lookupKey k (DisplayObject.update old d pairs).members = some (m.update v)) := by
  obtain ⟨od, oms, ext, odc⟩ := old
  have hchar : ∀ k, lookupKey k (DisplayObject.update (.mk od oms ext odc) d pairs).members =
      (lastOcc k pairs).map fun v => updOrNew oms k v := by
    intro k
    simp only [DisplayObject.update, DisplayObject.members]
    rw [lookupKey_updateMembers]
    cases lastOcc k pairs with
    | some v => simp
    | none => simp [lookupKey]
  refine ⟨DisplayValue.update_map _ _ _, by simp [DisplayObject.update],
    by simp [DisplayObject.update],
    updateMembers_pairwise oms pairs [] (by simp), hchar, ?_, ?_⟩
  · intro k hk
    rw [hchar k, hk]
    rfl
  · intro k m v hm hv
    rw [hchar k, hv]
    simp only [DisplayObject.members] at hm
    simp [updOrNew, hm]

/-- Witness for C4 at a concrete input: member `"a"` of the old object
is reconciled against the new value bound to `"a"`. -/
theorem claim_C4_object_update_witness :
    lookupKey "a" (DisplayObject.update
        (DisplayObject.mk none [("a", DisplayValue.Scalar ⟨"x", false⟩)] true false)
        none [("a", Value.scalar "y"), ("b", Value.scalar "z")]).members
      = some (DisplayValue.update (DisplayValue.Scalar ⟨"x", false⟩) (Value.scalar "y")) :=
  (claim_C4_object_update _ _ _).2.2.2.2.2.2 "a" _ _ rfl rfl

/-- C5: when the old node's variant differs from the new value's variant
the node is entirely freshly constructed (so with default fold state);
a scalar result gets its `changed` flag forced to `true`, while a
container result is exactly the fresh construction with no change flag
forced. -/
theorem claim_C5_variant_mismatch (t : DisplayValue) (v : Value)
    (h : variantMatches t v = false) :
    (∀ s, v = .scalar s → DisplayValue.update t v = .Scalar ⟨s, true⟩) ∧
    (∀ d pairs, v = .map d pairs → DisplayValue.update t v = DisplayValue.new (.map d pairs)) ∧
    (∀ d items, v = .arr d items → DisplayValue.update t v = DisplayValue.new (.arr d items)) := by
  refine ⟨?_, ?_, ?_⟩
  · rintro s rfl
    cases t with
    | Scalar s' => simp [variantMatches] at h
    | Object o => simp [DisplayValue.update, DisplayValue.new, DisplayScalar.new]
    | Array a => simp [DisplayValue.update, DisplayValue.new, DisplayScalar.new]
  · rintro d pairs rfl
    cases t with
    | Scalar s' => simp [DisplayValue.update, DisplayValue.new]
    | Object o => simp [variantMatches] at h
    | Array a => simp [DisplayValue.update, DisplayValue.new]
  · rintro d items rfl
    cases t with
    | Scalar s' => simp [DisplayValue.update, DisplayValue.new]
    | Object o => simp [DisplayValue.update, DisplayValue.new]
    | Array a => simp [variantMatches] at h

/-- Witness for C5 at a concrete input: a scalar node updated with a map
value is replaced by a fresh construction. -/
theorem claim_C5_variant_mismatch_witness :
    DisplayValue.update (DisplayValue.Scalar ⟨"x", false⟩) (Value.map none [])
      = DisplayValue.new (Value.map none []) :=
  (claim_C5_variant_mismatch (DisplayValue.Scalar ⟨"x", false⟩) (Value.map none []) rfl).2.1
    none [] rfl

/-- C7: fresh construction yields for a scalar its text with no flag,
for a map an object whose members are the adapter's pairs inserted into
a key-sorted map (last occurrence of a duplicated key wins) with
`extended = true`, for an array the freshly constructed items with
`visible_count = min(3, length)` and `extended = true`; and no change
flag is set anywhere in a freshly constructed tree. -/
theorem claim_C7_construct :
    (∀ s, DisplayValue.new (.scalar s) = .Scalar ⟨s, false⟩) ∧
    (∀ d pairs, DisplayValue.new (.map d pairs) = .Object (DisplayObject.new d pairs) ∧
      (DisplayObject.new d pairs).extended = true ∧
      (DisplayObject.new d pairs).description = d ∧
      (DisplayObject.new d pairs).members.Pairwise keyLt ∧
      (∀ k, lookupKey k (DisplayObject.new d pairs).members =
        (lastOcc k pairs).map DisplayValue.new)) ∧
    (∀ d items, DisplayValue.new (.arr d items) = .Array (DisplayArray.new d items) ∧
      (DisplayArray.new d items).extended = true ∧
      (DisplayArray.new d items).description = d ∧
      (DisplayArray.new d items).values = items.map DisplayValue.new ∧
      (DisplayArray.new d items).num_extended = min 3 items.length) ∧
    (∀ v, noFlags (DisplayValue.new v) = true) := by
  refine ⟨?_, ?_, ?_, noFlags_new⟩
  · intro s
    simp [DisplayValue.new, DisplayScalar.new]
  · intro d pairs
    refine ⟨DisplayValue.new_map d pairs, by simp [DisplayObject.new],
      by simp [DisplayObject.new], newMembers_pairwise pairs [] (by simp), ?_⟩
    intro k
    simp only [DisplayObject.new, DisplayObject.members]
    rw [lookupKey_newMembers]
    cases lastOcc k pairs with
    | some v => simp
    | none => simp [lookupKey]
  · intro d items
    refine ⟨DisplayValue.new_arr d items, by simp [DisplayArray.new],
      by simp [DisplayArray.new], by simp [DisplayArray.new, newVals_eq_map], ?_⟩
    simp [DisplayArray.new, newVals_eq_map]

/-- C9: `reset(v)` installs exactly the tree of a fresh construction
`new(v)`: the same tree as `JsonViewer::new`, with no change flags
anywhere and default fold state. -/
theorem claim_C9_reset (st : JsonViewer) (v : Value) :
    (JsonViewer.reset st v).value = (JsonViewer.new v).value ∧
    (JsonViewer.reset st v).value = DisplayValue.new v ∧
    noFlags ((JsonViewer.reset st v).value) = true :=
  ⟨rfl, rfl, noFlags_new v⟩

mutual
/-- Every array node of the tree satisfies
`num_extended ≤ values.length`. -/
def arraysOk : DisplayValue → Bool
  | .Scalar _ => true
  | .Object (.mk _ ms _ _) => arraysOkMembers ms
  | .Array (.mk _ vs _ nx _ _) => (nx ≤ vs.length) && arraysOkVals vs
termination_by t => sizeOf t
decreasing_by all_goals (simp_wf <;> omega)

def arraysOkMembers : List (String × DisplayValue) → Bool
  | [] => true
  | (_, m) :: rest => arraysOk m && arraysOkMembers rest
termination_by l => sizeOf l
decreasing_by all_goals (simp_wf <;> omega)

def arraysOkVals : List DisplayValue → Bool
  | [] => true
  | v :: rest => arraysOk v && arraysOkVals rest
termination_by l => sizeOf l
decreasing_by all_goals (simp_wf <;> omega)
end

theorem arraysOkMembers_iff (l : List (String × DisplayValue)) :
    arraysOkMembers l = true ↔ ∀ p ∈ l, arraysOk p.2 = true := by
  induction l with
  | nil => simp [arraysOkMembers]
  | cons hd rest ih =>
    obtain ⟨k, m⟩ := hd
    simp [arraysOkMembers, ih]

theorem arraysOkVals_iff (l : List DisplayValue) :
    arraysOkVals l = true ↔ ∀ v ∈ l, arraysOk v = true := by
  induction l with
  | nil => simp [arraysOkVals]
  | cons hd rest ih => simp [arraysOkVals, ih]

/-- Fresh construction establishes the array bounds invariant. -/
theorem arraysOk_new : ∀ v, arraysOk (DisplayValue.new v) = true := by
  intro v
  induction v using Value.memInduction with
  | hs s => simp [DisplayValue.new, DisplayScalar.new, arraysOk]
  | hm d pairs ih =>
    simp only [DisplayValue.new, arraysOk]
    rw [arraysOkMembers_iff]
    rintro ⟨k, m⟩ hp
    have hsorted := newMembers_pairwise pairs [] (by simp)
    have hlk := lookupKey_of_mem_pairwise hsorted hp
    rw [lookupKey_newMembers] at hlk
    cases hlast : lastOcc k pairs with
    | none => rw [hlast] at hlk; simp [lookupKey] at hlk
    | some v' =>
      rw [hlast] at hlk
      simp only [Option.some.injEq] at hlk
      rw [← hlk]
      exact ih (k, v') (lastOcc_mem hlast)
  | ha d items ih =>
    simp only [DisplayValue.new, arraysOk, Bool.and_eq_true]
    constructor
    · simp
    · rw [arraysOkVals_iff]
      intro x hx
      rw [newVals_eq_map] at hx
      obtain ⟨v, hv, rfl⟩ := List.mem_map.mp hx
      exact ih v hv

/-- Reconciliation re-establishes the array bounds invariant for any old
tree. -/
theorem arraysOk_update : ∀ v t, arraysOk (DisplayValue.update t v) = true := by
  intro v
  induction v using Value.memInduction with
  | hs s =>
    intro t
    cases t with
    | Scalar s' => simp [DisplayValue.update, DisplayScalar.update, arraysOk]
    | Object o => simp [DisplayValue.update, DisplayValue.new, DisplayScalar.new, arraysOk]
    | Array a => simp [DisplayValue.update, DisplayValue.new, DisplayScalar.new, arraysOk]
  | hm d pairs ih =>
    intro t
    have hobj : ∀ od oms ext odc,
        arraysOk (DisplayValue.update (.Object (.mk od oms ext odc)) (.map d pairs)) = true := by
      intro od oms ext odc
      simp only [DisplayValue.update, arraysOk, DisplayObject.members,
        DisplayObject.description, DisplayObject.extended]
      rw [arraysOkMembers_iff]
      rintro ⟨k, m⟩ hp
      have hsorted := updateMembers_pairwise oms pairs [] (by simp)
      have hlk := lookupKey_of_mem_pairwise hsorted hp
      rw [lookupKey_updateMembers] at hlk
      cases hlast : lastOcc k pairs with
      | none => rw [hlast] at hlk; simp [lookupKey] at hlk
      | some v' =>
        rw [hlast] at hlk
        simp only [Option.some.injEq] at hlk
        rw [← hlk]
        cases hfind : lookupKey k oms with
        | some m0 =>
          simp only [updOrNew, hfind]
          exact ih (k, v') (lastOcc_mem hlast) m0
        | none =>
          simp only [updOrNew, hfind]
          exact arraysOk_new v'
    cases t with
    | Scalar s' =>
      have heq : DisplayValue.update (.Scalar s') (.map d pairs)
          = DisplayValue.new (.map d pairs) := by
        simp [DisplayValue.update, DisplayValue.new]
      rw [heq]; exact arraysOk_new _
    | Object o => obtain ⟨od, oms, ext, odc⟩ := o; exact hobj od oms ext odc
    | Array a =>
      have heq : DisplayValue.update (.Array a) (.map d pairs)
          = DisplayValue.new (.map d pairs) := by
        simp [DisplayValue.update, DisplayValue.new]
      rw [heq]; exact arraysOk_new _
  | ha d items ih =>
    intro t
    cases t with
    | Scalar s' =>
      have heq : DisplayValue.update (.Scalar s') (.arr d items)
          = DisplayValue.new (.arr d items) := by
        simp [DisplayValue.update, DisplayValue.new]
      rw [heq]; exact arraysOk_new _
    | Object o =>
      have heq : DisplayValue.update (.Object o) (.arr d items)
          = DisplayValue.new (.arr d items) := by
        simp [DisplayValue.update, DisplayValue.new]
      rw [heq]; exact arraysOk_new _
    | Array a =>
      obtain ⟨od, ovs, ext, onx, olc, odc⟩ := a
      simp only [DisplayValue.update, arraysOk, DisplayArray.values,
        DisplayArray.description, DisplayArray.extended, DisplayArray.num_extended,
        Bool.and_eq_true]
      constructor
      · simp [Nat.min_le_right]
      · rw [arraysOkVals_iff]
        intro x hx
        obtain ⟨i, hi⟩ := List.mem_iff_getElem?.mp hx
        rw [updateVals_getElem?] at hi
        cases hit : items[i]? with
        | none => rw [hit] at hi; simp at hi
        | some v' =>
          rw [hit] at hi
          simp only [Option.map_some', Option.some.injEq] at hi
          rw [← hi]
          cases ho : ovs[i]? with
          | some o => exact ih v' (List.getElem?_mem hit) o
          | none => exact arraysOk_new v'

/-- C6: every array node satisfies `num_extended ≤ values.length`
(`0 ≤` holds on `Nat`); construction and reconciliation establish it;
`grow` adds one under the `can_grow` bound and fails its assertion
otherwise; `shrink` subtracts one under the `can_shrink` bound,
preserving the upper bound, and fails (underflows) at zero; the action
dispatch fails a Grow at `can_grow = false` and a Shrink at
`can_shrink = false` instead of violating the bounds; and toggling
visibility leaves `num_extended` and the items untouched. -/
theorem claim_C6_visible_count_bounds :
    (∀ v, arraysOk (DisplayValue.new v) = true) ∧
    (∀ t v, arraysOk (DisplayValue.update t v) = true) ∧
    (∀ a : DisplayArray, a.can_grow = true →
      a.grow = some (DisplayArray.mk a.description a.values a.extended
        (a.num_extended + 1) a.length_changed a.description_changed) ∧
      a.num_extended + 1 ≤ a.values.length) ∧
    (∀ a : DisplayArray, a.can_grow = false → a.grow = none) ∧
    (∀ a : DisplayArray, a.can_shrink = true →
      a.shrink = some (DisplayArray.mk a.description a.values a.extended
        (a.num_extended - 1) a.length_changed a.description_changed) ∧
      (a.num_extended ≤ a.values.length → a.num_extended - 1 ≤ a.values.length)) ∧
    (∀ a : DisplayArray, a.can_shrink = false → a.shrink = none) ∧
    (∀ a : DisplayArray, find_and_act_on_element Path.arrGrow (.Array a) = none ↔
      a.can_grow = false) ∧
    (∀ a : DisplayArray, find_and_act_on_element Path.arrShrink (.Array a) = none ↔
      a.can_shrink = false) ∧
    (∀ a : DisplayArray, (a.toggle_visibility).num_extended = a.num_extended ∧
      (a.toggle_visibility).values = a.values) := by
  refine ⟨arraysOk_new, fun t v => arraysOk_update v t, ?_, ?_, ?_, ?_, ?_, ?_, ?_⟩
  · rintro ⟨d, vs, e, nx, lc, dc⟩ h
    simp only [DisplayArray.can_grow, DisplayArray.num_extended, DisplayArray.values,
      decide_eq_true_eq] at h
    constructor
    · simp [DisplayArray.grow, Nat.succ_le_of_lt h]
    · simpa using Nat.succ_le_of_lt h
  · rintro ⟨d, vs, e, nx, lc, dc⟩ h
    simp only [DisplayArray.can_grow, DisplayArray.num_extended, DisplayArray.values,
      decide_eq_false_iff_not, Nat.not_lt] at h
    simp only [DisplayArray.grow]
    rw [if_neg (by omega)]
  · rintro ⟨d, vs, e, nx, lc, dc⟩ h
    simp only [DisplayArray.can_shrink, DisplayArray.num_extended,
      decide_eq_true_eq] at h
    constructor
    · simp only [DisplayArray.shrink, DisplayArray.description, DisplayArray.values,
        DisplayArray.extended, DisplayArray.num_extended, DisplayArray.length_changed,
        DisplayArray.description_changed]
      rw [if_pos h]
    · simp only [DisplayArray.num_extended, DisplayArray.values]
      omega
  · rintro ⟨d, vs, e, nx, lc, dc⟩ h
    simp only [DisplayArray.can_shrink, DisplayArray.num_extended,
      decide_eq_false_iff_not, Nat.not_lt, Nat.le_zero] at h
    simp only [DisplayArray.shrink]
    rw [if_neg (by omega)]
  · rintro ⟨d, vs, e, nx, lc, dc⟩
    constructor
    · intro h
      by_contra hc
      have hg : DisplayArray.can_grow (.mk d vs e nx lc dc) = true :=
        Bool.eq_true_of_ne_false hc
      rw [find_and_act_on_element, if_pos hg] at h
      have hlt : nx < vs.length := by
        simpa [DisplayArray.can_grow] using hg
      rw [show DisplayArray.grow (.mk d vs e nx lc dc)
          = some (.mk d vs e (nx + 1) lc dc) by
        simp [DisplayArray.grow, Nat.succ_le_of_lt hlt]] at h
      simp at h
    · intro h
      rw [find_and_act_on_element, if_neg (by simp [h])]
  · rintro ⟨d, vs, e, nx, lc, dc⟩
    constructor
    · intro h
      by_contra hc
      have hg : DisplayArray.can_shrink (.mk d vs e nx lc dc) = true :=
        Bool.eq_true_of_ne_false hc
      rw [find_and_act_on_element, if_pos hg] at h
      have hpos : 0 < nx := by
        simpa [DisplayArray.can_shrink] using hg
      rw [show DisplayArray.shrink (.mk d vs e nx lc dc)
          = some (.mk d vs e (nx - 1) lc dc) by
        simp only [DisplayArray.shrink]; rw [if_pos hpos]] at h
      simp at h
    · intro h
      rw [find_and_act_on_element, if_neg (by simp [h])]
  · rintro ⟨d, vs, e, nx, lc, dc⟩
    simp [DisplayArray.toggle_visibility]

/-- Witness for C6 at concrete inputs: a two-element array with both
items visible cannot grow and the grow fails there, and an array with
no visible item cannot shrink and the shrink fails there. -/
theorem claim_C6_visible_count_bounds_witness :
    DisplayArray.can_grow (DisplayArray.mk none
      [DisplayValue.Scalar ⟨"x", false⟩, DisplayValue.Scalar ⟨"y", false⟩] true 2 false false)
      = false ∧
    DisplayArray.grow (DisplayArray.mk none
      [DisplayValue.Scalar ⟨"x", false⟩, DisplayValue.Scalar ⟨"y", false⟩] true 2 false false)
      = none ∧
    DisplayArray.can_shrink (DisplayArray.mk none
      [DisplayValue.Scalar ⟨"x", false⟩] true 0 false false) = false ∧
    DisplayArray.shrink (DisplayArray.mk none
      [DisplayValue.Scalar ⟨"x", false⟩] true 0 false false) = none :=
  ⟨rfl, claim_C6_visible_count_bounds.2.2.2.1 _ rfl, rfl,
    claim_C6_visible_count_bounds.2.2.2.2.2.1 _ rfl⟩

/-- Induction over `JsonValue` with the member/item lists handled by
list membership. -/
theorem JsonValue.jsonMemInduction (P : JsonValue → Prop)
    (h0 : P .Null) (h1 : ∀ s, P (.Short s)) (h2 : ∀ s, P (.Str s))
    (h3 : ∀ n, P (.Number n)) (h4 : ∀ b, P (.Boolean b))
    (h5 : ∀ pairs, (∀ p ∈ pairs, P p.2) → P (.Object pairs))
    (h6 : ∀ items, (∀ v ∈ items, P v) → P (.Array items)) :
    ∀ j, P j
  | .Null => h0
  | .Short s => h1 s
  | .Str s => h2 s
  | .Number n => h3 n
  | .Boolean b => h4 b
  | .Object pairs => h5 pairs fun p hp =>
      JsonValue.jsonMemInduction P h0 h1 h2 h3 h4 h5 h6 p.2
  | .Array items => h6 items fun v hv =>
      JsonValue.jsonMemInduction P h0 h1 h2 h3 h4 h5 h6 v
termination_by j => sizeOf j
decreasing_by
  · have hs := List.sizeOf_lt_of_mem hp
    obtain ⟨a, b⟩ := p
    simp_wf
    simp at hs
    omega
  · have hs := List.sizeOf_lt_of_mem hv
    simp_wf
    omega

/-- The JSON adapter never supplies a container description. -/
theorem valueDescNone_visit : ∀ j, valueDescNone (JsonValue.visit j) = true := by
  intro j
  induction j using JsonValue.jsonMemInduction with
  | h0 => simp [JsonValue.visit, valueDescNone]
  | h1 s => simp [JsonValue.visit, valueDescNone]
  | h2 s => simp [JsonValue.visit, valueDescNone]
  | h3 n => simp [JsonValue.visit, valueDescNone]
  | h4 b => simp [JsonValue.visit, valueDescNone]
  | h5 pairs ih =>
    simp only [JsonValue.visit, valueDescNone, Option.isNone_none, Bool.true_and]
    rw [valueDescNonePairs_iff]
    intro p hp
    rw [visitPairs_eq_map] at hp
    obtain ⟨q, hq, rfl⟩ := List.mem_map.mp hp
    exact ih q hq
  | h6 items ih =>
    simp only [JsonValue.visit, valueDescNone, Option.isNone_none, Bool.true_and]
    rw [valueDescNoneList_iff]
    intro v hv
    rw [visitList_eq_map] at hv
    obtain ⟨j', hj, rfl⟩ := List.mem_map.mp hv
    exact ih j' hj

/-- Fresh construction from a description-free value yields a
description-free tree. -/
theorem treeDescNone_new : ∀ v, valueDescNone v = true →
    treeDescNone (DisplayValue.new v) = true := by
  intro v
  induction v using Value.memInduction with
  | hs s => intro h; simp [DisplayValue.new, DisplayScalar.new, treeDescNone]
  | hm d pairs ih =>
    intro h
    simp only [valueDescNone, Bool.and_eq_true] at h
    obtain ⟨hd, hp⟩ := h
    simp only [DisplayValue.new, treeDescNone, hd, Bool.true_and]
    rw [treeDescNoneMembers_iff]
    rintro ⟨k, m⟩ hm'
    have hsorted := newMembers_pairwise pairs [] (by simp)
    have hlk := lookupKey_of_mem_pairwise hsorted hm'
    rw [lookupKey_newMembers] at hlk
    cases hlast : lastOcc k pairs with
    | none => rw [hlast] at hlk; simp [lookupKey] at hlk
    | some v' =>
      rw [hlast] at hlk
      simp only [Option.some.injEq] at hlk
      rw [← hlk]
      exact ih (k, v') (lastOcc_mem hlast)
        ((valueDescNonePairs_iff pairs).mp hp (k, v') (lastOcc_mem hlast))
  | ha d items ih =>
    intro h
    simp only [valueDescNone, Bool.and_eq_true] at h
    obtain ⟨hd, hi⟩ := h
    simp only [DisplayValue.new, treeDescNone, hd, Bool.true_and]
    rw [treeDescNoneVals_iff]
    intro x hx
    rw [newVals_eq_map] at hx
    obtain ⟨v, hv, rfl⟩ := List.mem_map.mp hx
    exact ih v hv ((valueDescNoneList_iff items).mp hi v hv)

/-- Fresh construction sets no `description_changed` flag. -/
theorem noDescChanged_new : ∀ v, noDescChanged (DisplayValue.new v) = true := by
  intro v
  induction v using Value.memInduction with
  | hs s => simp [DisplayValue.new, DisplayScalar.new, noDescChanged]
  | hm d pairs ih =>
    simp only [DisplayValue.new, noDescChanged, Bool.not_false, Bool.true_and]
    rw [noDescChangedMembers_iff]
    rintro ⟨k, m⟩ hm'
    have hsorted := newMembers_pairwise pairs [] (by simp)
    have hlk := lookupKey_of_mem_pairwise hsorted hm'
    rw [lookupKey_newMembers] at hlk
    cases hlast : lastOcc k pairs with
    | none => rw [hlast] at hlk; simp [lookupKey] at hlk
    | some v' =>
      rw [hlast] at hlk
      simp only [Option.some.injEq] at hlk
      rw [← hlk]
      exact ih (k, v') (lastOcc_mem hlast)
  | ha d items ih =>
    simp only [DisplayValue.new, noDescChanged, Bool.not_false, Bool.true_and]
    rw [noDescChangedVals_iff]
    intro x hx
    rw [newVals_eq_map] at hx
    obtain ⟨v, hv, rfl⟩ := List.mem_map.mp hx
    exact ih v hv

/-- Reconciling a description-free tree against a description-free value
keeps the tree description-free and sets no `description_changed`
flag anywhere. -/
theorem descNone_update : ∀ v t, valueDescNone v = true → treeDescNone t = true →
    treeDescNone (DisplayValue.update t v) = true ∧
    noDescChanged (DisplayValue.update t v) = true := by
  intro v
  induction v using Value.memInduction with
  | hs s =>
    intro t hv ht
    cases t with
    | Scalar s' =>
      simp [DisplayValue.update, DisplayScalar.update, treeDescNone, noDescChanged]
    | Object o =>
      simp [DisplayValue.update, DisplayValue.new, DisplayScalar.new, treeDescNone,
        noDescChanged]
    | Array a =>
      simp [DisplayValue.update, DisplayValue.new, DisplayScalar.new, treeDescNone,
        noDescChanged]
  | hm d pairs ih =>
    intro t hv ht
    simp only [valueDescNone, Bool.and_eq_true] at hv
    obtain ⟨hd, hp⟩ := hv
    have hd' : d = none := Option.isNone_iff_eq_none.mp hd
    cases t with
    | Scalar s' =>
      have heq : DisplayValue.update (.Scalar s') (.map d pairs)
          = DisplayValue.new (.map d pairs) := by
        simp [DisplayValue.update, DisplayValue.new]
      rw [heq]
      exact ⟨treeDescNone_new _ (by simp [valueDescNone, hd, hp]), noDescChanged_new _⟩
    | Array a =>
      have heq : DisplayValue.update (.Array a) (.map d pairs)
          = DisplayValue.new (.map d pairs) := by
        simp [DisplayValue.update, DisplayValue.new]
      rw [heq]
      exact ⟨treeDescNone_new _ (by simp [valueDescNone, hd, hp]), noDescChanged_new _⟩
    | Object o =>
      obtain ⟨od, oms, ext, odc⟩ := o
      simp only [treeDescNone, Bool.and_eq_true] at ht
      obtain ⟨hod, homs⟩ := ht
      have hod' : od = none := Option.isNone_iff_eq_none.mp hod
      have hmem : ∀ p ∈ updateMembers oms [] pairs,
          treeDescNone p.2 = true ∧ noDescChanged p.2 = true := by
        rintro ⟨k, m⟩ hm'
        have hsorted := updateMembers_pairwise oms pairs [] (by simp)
        have hlk := lookupKey_of_mem_pairwise hsorted hm'
        rw [lookupKey_updateMembers] at hlk
        cases hlast : lastOcc k pairs with
        | none => rw [hlast] at hlk; simp [lookupKey] at hlk
        | some v' =>
          rw [hlast] at hlk
          simp only [Option.some.injEq] at hlk
          rw [← hlk]
          have hv' : valueDescNone v' = true :=
            (valueDescNonePairs_iff pairs).mp hp (k, v') (lastOcc_mem hlast)
          cases hfind : lookupKey k oms with
          | some m0 =>
            simp only [updOrNew, hfind]
            have hm0 : treeDescNone m0 = true :=
              (treeDescNoneMembers_iff oms).mp homs (k, m0) (lookupKey_mem hfind)
            exact ih (k, v') (lastOcc_mem hlast) m0 hv' hm0
          | none =>
            simp only [updOrNew, hfind]
            exact ⟨treeDescNone_new v' hv', noDescChanged_new v'⟩
      constructor
      · simp only [DisplayValue.update, treeDescNone, DisplayObject.members,
          DisplayObject.description, DisplayObject.extended, hd, Bool.true_and]
        rw [treeDescNoneMembers_iff]
        exact fun p hp' => (hmem p hp').1
      · simp only [DisplayValue.update, noDescChanged, DisplayObject.members,
          DisplayObject.description, DisplayObject.extended, hod', hd',
          bne_self_eq_false, Bool.not_false, Bool.true_and]
        rw [noDescChangedMembers_iff]
        exact fun p hp' => (hmem p hp').2
  | ha d items ih =>
    intro t hv ht
    simp only [valueDescNone, Bool.and_eq_true] at hv
    obtain ⟨hd, hitems⟩ := hv
    have hd' : d = none := Option.isNone_iff_eq_none.mp hd
    cases t with
    | Scalar s' =>
      have heq : DisplayValue.update (.Scalar s') (.arr d items)
          = DisplayValue.new (.arr d items) := by
        simp [DisplayValue.update, DisplayValue.new]
      rw [heq]
      exact ⟨treeDescNone_new _ (by simp [valueDescNone, hd, hitems]), noDescChanged_new _⟩
    | Object o =>
      have heq : DisplayValue.update (.Object o) (.arr d items)
          = DisplayValue.new (.arr d items) := by
        simp [DisplayValue.update, DisplayValue.new]
      rw [heq]
      exact ⟨treeDescNone_new _ (by simp [valueDescNone, hd, hitems]), noDescChanged_new _⟩
    | Array a =>
      obtain ⟨od, ovs, ext, onx, olc, odc⟩ := a
      simp only [treeDescNone, Bool.and_eq_true] at ht
      obtain ⟨hod, hovs⟩ := ht
      have hod' : od = none := Option.isNone_iff_eq_none.mp hod
      have hmem : ∀ x ∈ updateVals ovs items,
          treeDescNone x = true ∧ noDescChanged x = true := by
        intro x hx
        obtain ⟨i, hi⟩ := List.mem_iff_getElem?.mp hx
        rw [updateVals_getElem?] at hi
        cases hit : items[i]? with
        | none => rw [hit] at hi; simp at hi
        | some v' =>
          rw [hit] at hi
          simp only [Option.map_some', Option.some.injEq] at hi
          rw [← hi]
          have hv' : valueDescNone v' = true :=
            (valueDescNoneList_iff items).mp hitems v' (List.getElem?_mem hit)
          cases ho : ovs[i]? with
          | some o =>
            have ho' : treeDescNone o = true :=
              (treeDescNoneVals_iff ovs).mp hovs o (List.getElem?_mem ho)
            exact ih v' (List.getElem?_mem hit) o hv' ho'
          | none => exact ⟨treeDescNone_new v' hv', noDescChanged_new v'⟩
      constructor
      · simp only [DisplayValue.update, treeDescNone, DisplayArray.values,
          DisplayArray.description, DisplayArray.extended, DisplayArray.num_extended,
          hd, Bool.true_and]
        rw [treeDescNoneVals_iff]
        exact fun x hx => (hmem x hx).1
      · simp only [DisplayValue.update, noDescChanged, DisplayArray.values,
          DisplayArray.description, DisplayArray.extended, DisplayArray.num_extended,
          hod', hd', bne_self_eq_false, Bool.not_false, Bool.true_and]
        rw [noDescChangedVals_iff]
        exact fun x hx => (hmem x hx).2

/-- C10: the JSON adapter classifies `Null` as the scalar `"null"`,
`Short`/`String`/`Number`/`Boolean` as scalars with their textual form,
objects as maps and arrays as arrays, always without a description —
hence trees built from JSON input have no container description, and no
`description_changed` flag is set after any update with JSON input. -/
theorem claim_C10_json_adapter :
    JsonValue.visit .Null = .scalar "null" ∧
    (∀ s, JsonValue.visit (.Short s) = .scalar s) ∧
    (∀ s, JsonValue.visit (.Str s) = .scalar s) ∧
    (∀ n, JsonValue.visit (.Number n) = .scalar (toString n)) ∧
    (∀ b, JsonValue.visit (.Boolean b) = .scalar (if b then "true" else "false")) ∧
    (∀ pairs, JsonValue.visit (.Object pairs) =
      .map none (pairs.map fun p => (p.1, p.2.visit))) ∧
    (∀ items, JsonValue.visit (.Array items) = .arr none (items.map JsonValue.visit)) ∧
    (∀ j, treeDescNone (DisplayValue.new (JsonValue.visit j)) = true) ∧
    (∀ j t, treeDescNone t = true →
      treeDescNone (DisplayValue.update t (JsonValue.visit j)) = true ∧
      noDescChanged (DisplayValue.update t (JsonValue.visit j)) = true) := by
  refine ⟨by simp [JsonValue.visit], fun s => by simp [JsonValue.visit],
    fun s => by simp [JsonValue.visit], fun n => by simp [JsonValue.visit],
    fun b => by simp [JsonValue.visit],
    fun pairs => by simp [JsonValue.visit, visitPairs_eq_map],
    fun items => by simp [JsonValue.visit, visitList_eq_map],
    fun j => treeDescNone_new _ (valueDescNone_visit j),
    fun j t ht => descNone_update (JsonValue.visit j) t (valueDescNone_visit j) ht⟩

/-- Witness for C10 at a concrete input: updating the scalar tree for
`null` with a one-member JSON object yields a description-free tree with
no `description_changed` flag. -/
theorem claim_C10_json_adapter_witness :
    treeDescNone (DisplayValue.update (DisplayValue.Scalar ⟨"null", false⟩)
      (JsonValue.visit (JsonValue.Object [("a", JsonValue.Null)]))) = true ∧
    noDescChanged (DisplayValue.update (DisplayValue.Scalar ⟨"null", false⟩)
      (JsonValue.visit (JsonValue.Object [("a", JsonValue.Null)]))) = true :=
  claim_C10_json_adapter.2.2.2.2.2.2.2.2 (JsonValue.Object [("a", JsonValue.Null)])
    (DisplayValue.Scalar ⟨"null", false⟩) (by simp [treeDescNone])

theorem firstPoint_mem (t : DisplayValue) : firstPoint t ∈ enumPoints t := by
  cases t with
  | Scalar s => simp [firstPoint, enumPoints]
  | Object o =>
    obtain ⟨d, ms, e, dc⟩ := o
    cases e <;> simp [firstPoint, enumPoints]
  | Array a =>
    obtain ⟨d, vs, e, nx, lc, dc⟩ := a
    cases e <;> simp [firstPoint, enumPoints]

theorem enumPoints_ne_nil (t : DisplayValue) : enumPoints t ≠ [] := by
  intro h
  have hmem := firstPoint_mem t
  rw [h] at hmem
  exact List.not_mem_nil _ hmem

theorem enumMembers_mem {ms : List (String × DisplayValue)} {k : String}
    {m : DisplayValue} {q : Path} (hm : (k, m) ∈ ms) (hq : q ∈ enumPoints m) :
    Path.objItem k q ∈ enumMembers ms := by
  induction ms with
  | nil => simp at hm
  | cons hd rest ih =>
    obtain ⟨k', m'⟩ := hd
    rcases List.mem_cons.mp hm with h | h
    · simp only [Prod.mk.injEq] at h
      obtain ⟨rfl, rfl⟩ := h
      simp only [enumMembers, List.mem_append]
      exact Or.inl (List.mem_map.mpr ⟨q, hq, rfl⟩)
    · simp only [enumMembers, List.mem_append]
      exact Or.inr (ih h)

theorem enumIdx_mem :
    ∀ (vs : List DisplayValue) (n i j : Nat) (m : DisplayValue) (q : Path),
      vs[i]? = some m → i < n → q ∈ enumPoints m →
      Path.arrItem (j + i) q ∈ enumIdx j n vs := by
  intro vs
  induction vs with
  | nil => intro n i j m q hm; simp at hm
  | cons v rest ih =>
    intro n i j m q hm hn hq
    cases n with
    | zero => omega
    | succ n' =>
      cases i with
      | zero =>
        simp only [List.getElem?_cons_zero, Option.some.injEq] at hm
        subst hm
        simp only [enumIdx, Nat.add_zero, List.mem_append]
        exact Or.inl (List.mem_map.mpr ⟨q, hq, rfl⟩)
      | succ i' =>
        simp only [List.getElem?_cons_succ] at hm
        have := ih n' i' (j + 1) m q hm (by omega) hq
        simp only [enumIdx, List.mem_append]
        right
        have harith : j + 1 + i' = j + (i' + 1) := by omega
        rw [harith] at this
        exact this

theorem fixPathAux_mem :
    ∀ (p : Path) (t : DisplayValue) (q : Path),
      fixPathAux p t = some q → q ∈ enumPoints t := by
  intro p
  induction p with
  | scalar =>
    intro t q h
    cases t with
    | Scalar s =>
      simp only [fixPathAux, Option.some.injEq] at h
      subst h
      simp [enumPoints]
    | Object o => simp [fixPathAux] at h
    | Array a => simp [fixPathAux] at h
  | objToggle =>
    intro t q h
    cases t with
    | Scalar s => simp [fixPathAux] at h
    | Object o =>
      simp only [fixPathAux, Option.some.injEq] at h
      subst h
      obtain ⟨d, ms, e, dc⟩ := o
      cases e <;> simp [enumPoints]
    | Array a => simp [fixPathAux] at h
  | objItem k sub ih =>
    intro t q h
    cases t with
    | Scalar s => simp [fixPathAux] at h
    | Array a => simp [fixPathAux] at h
    | Object o =>
      obtain ⟨d, ms, e, dc⟩ := o
      cases e with
      | false =>
        simp only [fixPathAux, Bool.false_eq_true, if_false, Option.some.injEq] at h
        subst h
        simp [enumPoints]
      | true =>
        simp only [fixPathAux, if_true] at h
        cases hfind : lookupKey k ms with
        | none =>
          rw [hfind] at h
          simp only [Option.some.injEq] at h
          subst h
          simp [enumPoints]
        | some m =>
          rw [hfind] at h
          have h2 : (match fixPathAux sub m with
              | some sub' => some (Path.objItem k sub')
              | none => none) = some q := h
          cases hfix : fixPathAux sub m with
          | none => rw [hfix] at h2; simp at h2
          | some sub' =>
            rw [hfix] at h2
            simp only [Option.some.injEq] at h2
            subst h2
            simp only [enumPoints, if_true, List.mem_cons]
            exact Or.inr (enumMembers_mem (lookupKey_mem hfind) (ih m sub' hfix))
  | arrToggle =>
    intro t q h
    cases t with
    | Scalar s => simp [fixPathAux] at h
    | Object o => simp [fixPathAux] at h
    | Array a =>
      simp only [fixPathAux, Option.some.injEq] at h
      subst h
      obtain ⟨d, vs, e, nx, lc, dc⟩ := a
      cases e <;> simp [enumPoints]
  | arrShrink =>
    intro t q h
    cases t with
    | Scalar s => simp [fixPathAux] at h
    | Object o => simp [fixPathAux] at h
    | Array a =>
      obtain ⟨d, vs, e, nx, lc, dc⟩ := a
      simp only [fixPathAux, Option.some.injEq] at h
      subst h
      cases e <;> simp [enumPoints]
  | arrGrow =>
    intro t q h
    cases t with
    | Scalar s => simp [fixPathAux] at h
    | Object o => simp [fixPathAux] at h
    | Array a =>
      obtain ⟨d, vs, e, nx, lc, dc⟩ := a
      simp only [fixPathAux, Option.some.injEq] at h
      subst h
      cases e <;> simp [enumPoints]
  | arrItem i sub ih =>
    intro t q h
    cases t with
    | Scalar s => simp [fixPathAux] at h
    | Object o => simp [fixPathAux] at h
    | Array a =>
      obtain ⟨d, vs, e, nx, lc, dc⟩ := a
      simp only [fixPathAux] at h
      cases hcond : (e && decide (i < nx)) with
      | false =>
        rw [hcond] at h
        simp only [Bool.false_eq_true, if_false, Option.some.injEq] at h
        subst h
        cases e <;> simp [enumPoints]
      | true =>
        rw [hcond] at h
        simp only [if_true] at h
        simp only [Bool.and_eq_true, decide_eq_true_eq] at hcond
        obtain ⟨rfl, hilt⟩ := hcond
        cases hget : vs[i]? with
        | none =>
          rw [hget] at h
          simp only [Option.some.injEq] at h
          subst h
          simp [enumPoints]
        | some m =>
          rw [hget] at h
          have h2 : (match fixPathAux sub m with
              | some sub' => some (Path.arrItem i sub')
              | none => none) = some q := h
          cases hfix : fixPathAux sub m with
          | none => rw [hfix] at h2; simp at h2
          | some sub' =>
            rw [hfix] at h2
            simp only [Option.some.injEq] at h2
            subst h2
            simp only [enumPoints, if_true, List.mem_cons, List.mem_append]
            have := enumIdx_mem vs nx i 0 m sub' hget hilt (ih m sub' hfix)
            simp only [Nat.zero_add] at this
            exact Or.inr (Or.inl this)

theorem fix_path_for_value_mem (p : Path) (t : DisplayValue) :
    fix_path_for_value p t ∈ enumPoints t := by
  unfold fix_path_for_value
  cases hfix : fixPathAux p t with
  | some q => exact fixPathAux_mem p t q hfix
  | none => exact firstPoint_mem t

/-- C1: repair always succeeds — for every tree and every (old) address
the repaired address is a point of the current tree's canonical
enumeration, a non-empty-by-construction list; in particular the active
address is valid after every `update`, `reset` and
`toggle_active_element`. -/
theorem claim_C1_repair_safety :
    (∀ t, enumPoints t ≠ []) ∧
    (∀ p t, fix_path_for_value p t ∈ enumPoints t) ∧
    (∀ st v, (JsonViewer.update st v).active_element ∈
      enumPoints (JsonViewer.update st v).value) ∧
    (∀ st v, (JsonViewer.reset st v).active_element ∈
      enumPoints (JsonViewer.reset st v).value) ∧
    (∀ st, (JsonViewer.toggle_active_element st).1.active_element ∈
      enumPoints (JsonViewer.toggle_active_element st).1.value) := by
  refine ⟨enumPoints_ne_nil, fix_path_for_value_mem, ?_, ?_, ?_⟩
  · intro st v
    exact fix_path_for_value_mem st.active_element (st.value.update v)
  · intro st v
    exact fix_path_for_value_mem st.active_element (DisplayValue.new v)
  · intro st
    unfold JsonViewer.toggle_active_element
    cases h : find_and_act_on_element st.active_element st.value with
    | some t => exact fix_path_for_value_mem st.active_element t
    | none => exact fix_path_for_value_mem st.active_element st.value

/-- Witness for C1 at a concrete input: the address of the second item
of a nested array, after an update in which that array shrank to one
item, is repaired to a point of the new tree (the array's Toggle). -/
theorem claim_C1_repair_safety_witness :
    fix_path_for_value (Path.objItem "a" (Path.arrItem 1 Path.scalar))
      (DisplayValue.update
        (DisplayValue.new (Value.map none
          [("a", Value.arr none [Value.scalar "0", Value.scalar "1"])]))
        (Value.map none [("a", Value.arr none [Value.scalar "0"])]))
      ∈ enumPoints (DisplayValue.update
        (DisplayValue.new (Value.map none
          [("a", Value.arr none [Value.scalar "0", Value.scalar "1"])]))
        (Value.map none [("a", Value.arr none [Value.scalar "0"])])) :=
  claim_C1_repair_safety.2.1 (Path.objItem "a" (Path.arrItem 1 Path.scalar)) _

theorem nextIn_eq (p : Path) :
    ∀ (l : List Path), l.Nodup → ∀ i, l[i]? = some p → nextIn l p = l[i + 1]? := by
  intro l
  induction l with
  | nil => intro _ i hi; simp at hi
  | cons a rest ih =>
    intro hnd i hi
    cases i with
    | zero =>
      simp only [List.getElem?_cons_zero, Option.some.injEq] at hi
      subst hi
      cases rest with
      | nil => simp [nextIn]
      | cons b rest' => simp [nextIn]
    | succ i' =>
      simp only [List.getElem?_cons_succ] at hi
      have hmem : p ∈ rest := List.getElem?_mem hi
      have hne : ¬(a = p) := fun he => by
        subst he
        exact (List.nodup_cons.mp hnd).1 hmem
      cases rest with
      | nil => simp at hi
      | cons b rest' =>
        rw [show nextIn (a :: b :: rest') p
            = if a = p then some b else nextIn (b :: rest') p from rfl]
        rw [if_neg hne]
        simpa using ih (List.nodup_cons.mp hnd).2 i' hi

theorem prevIn_none_of_not_mem_tail (p : Path) :
    ∀ (x : Path) (rest : List Path), p ∉ rest → prevIn (x :: rest) p = none := by
  intro x rest
  induction rest generalizing x with
  | nil => intro _; rfl
  | cons y rest' ih =>
    intro hnm
    have hy : ¬(y = p) := fun he => hnm (he ▸ List.mem_cons_self _ _)
    rw [show prevIn (x :: y :: rest') p
        = if y = p then some x else prevIn (y :: rest') p from rfl]
    rw [if_neg hy]
    exact ih y (fun hm => hnm (List.mem_cons_of_mem _ hm))

theorem prevIn_eq (p : Path) :
    ∀ (l : List Path), l.Nodup → ∀ i, l[i + 1]? = some p → prevIn l p = l[i]? := by
  intro l
  induction l with
  | nil => intro _ i hi; simp at hi
  | cons a rest ih =>
    intro hnd i hi
    simp only [List.getElem?_cons_succ] at hi
    cases rest with
    | nil => simp at hi
    | cons b rest' =>
      cases i with
      | zero =>
        simp only [List.getElem?_cons_zero, Option.some.injEq] at hi
        rw [show prevIn (a :: b :: rest') p
            = if b = p then some a else prevIn (b :: rest') p from rfl]
        rw [if_pos hi]
        simp
      | succ i' =>
        simp only [List.getElem?_cons_succ] at hi
        have hmem : p ∈ rest' := List.getElem?_mem hi
        have hnd' : (b :: rest').Nodup := (List.nodup_cons.mp hnd).2
        have hb : ¬(b = p) := fun he => by
          subst he
          exact (List.nodup_cons.mp hnd').1 hmem
        rw [show prevIn (a :: b :: rest') p
            = if b = p then some a else prevIn (b :: rest') p from rfl]
        rw [if_neg hb]
        simp only [List.getElem?_cons_succ]
        exact ih hnd' i' (by simpa using hi)

/-- C8: `select_next` and `select_previous` move the active address to
the immediately following / preceding point of the canonical
enumeration; they fail at the last / first point respectively (no
wraparound), and a failed call leaves the viewer unchanged. -/
theorem claim_C8_navigation :
    (∀ st, (JsonViewer.select_next st).2 = false → (JsonViewer.select_next st).1 = st) ∧
    (∀ st, (JsonViewer.select_previous st).2 = false →
      (JsonViewer.select_previous st).1 = st) ∧
    (∀ st i, (enumPoints st.value).Nodup →
      (enumPoints st.value)[i]? = some st.active_element →
      JsonViewer.select_next st =
        match (enumPoints st.value)[i + 1]? with
        | some q => (⟨st.value, q⟩, true)
        | none => (st, false)) ∧
    (∀ st i, (enumPoints st.value).Nodup →
      (enumPoints st.value)[i + 1]? = some st.active_element →
      JsonViewer.select_previous st =
        match (enumPoints st.value)[i]? with
        | some q => (⟨st.value, q⟩, true)
        | none => (st, false)) ∧
    (∀ st, (enumPoints st.value).Nodup →
      (enumPoints st.value)[0]? = some st.active_element →
      JsonViewer.select_previous st = (st, false)) := by
  refine ⟨?_, ?_, ?_, ?_, ?_⟩
  · intro st h
    unfold JsonViewer.select_next at *
    cases hf : find_next_path st.active_element st.value with
    | some p => rw [hf] at h; simp at h
    | none => rfl
  · intro st h
    unfold JsonViewer.select_previous at *
    cases hf : find_previous_path st.active_element st.value with
    | some p => rw [hf] at h; simp at h
    | none => rfl
  · intro st i hnd hi
    unfold JsonViewer.select_next find_next_path
    rw [nextIn_eq st.active_element (enumPoints st.value) hnd i hi]
  · intro st i hnd hi
    unfold JsonViewer.select_previous find_previous_path
    rw [prevIn_eq st.active_element (enumPoints st.value) hnd i hi]
  · intro st hnd h0
    unfold JsonViewer.select_previous find_previous_path
    cases henum : enumPoints st.value with
    | nil => rfl
    | cons a rest =>
      rw [henum] at h0 hnd
      simp only [List.getElem?_cons_zero, Option.some.injEq] at h0
      rw [prevIn_none_of_not_mem_tail st.active_element a rest
        (h0 ▸ (List.nodup_cons.mp hnd).1)]

/-- Witness for C8 at a concrete input: in the one-member object tree
the enumeration is `[Toggle, Item "a"]`; from the Toggle point,
`select_next` moves to the member point and `select_previous` fails,
leaving the viewer unchanged. -/
theorem claim_C8_navigation_witness :
    JsonViewer.select_next
      (JsonViewer.mk (DisplayValue.Object (DisplayObject.mk none
        [("a", DisplayValue.Scalar ⟨"x", false⟩)] true false)) Path.objToggle)
      = (JsonViewer.mk (DisplayValue.Object (DisplayObject.mk none
        [("a", DisplayValue.Scalar ⟨"x", false⟩)] true false))
          (Path.objItem "a" Path.scalar), true) ∧
    JsonViewer.select_previous
      (JsonViewer.mk (DisplayValue.Object (DisplayObject.mk none
        [("a", DisplayValue.Scalar ⟨"x", false⟩)] true false)) Path.objToggle)
      = (JsonViewer.mk (DisplayValue.Object (DisplayObject.mk none
        [("a", DisplayValue.Scalar ⟨"x", false⟩)] true false)) Path.objToggle, false) := by
  have henum : enumPoints (DisplayValue.Object (DisplayObject.mk none
      [("a", DisplayValue.Scalar ⟨"x", false⟩)] true false))
      = [Path.objToggle, Path.objItem "a" Path.scalar] := by
    simp [enumPoints, enumMembers]
  constructor
  · have h := claim_C8_navigation.2.2.1
      (JsonViewer.mk (DisplayValue.Object (DisplayObject.mk none
        [("a", DisplayValue.Scalar ⟨"x", false⟩)] true false)) Path.objToggle)
      0 (by rw [henum]; decide) (by rw [henum]; rfl)
    rw [henum] at h
    simpa using h
  · exact claim_C8_navigation.2.2.2.2
      (JsonViewer.mk (DisplayValue.Object (DisplayObject.mk none
        [("a", DisplayValue.Scalar ⟨"x", false⟩)] true false)) Path.objToggle)
      (by rw [henum]; decide) (by rw [henum]; rfl)

end UnsegenJsonViewer
